import Mathlib

/-!
Verification development for the `aomg` procedural world generator
(`src/aomg/basetypes.py`).  Each component of the Python source that the
claims touch is shallowly embedded as executable Lean definitions:
Python exceptions become an error type, mutable objects become explicit
state records, `while` loops become fuel-indexed structural recursion,
and CPython `is` identity on condition terms is modelled by structural
equality (conditions carry object references only as numeric ids).
-/

/-- Python exception kinds raised by the embedded code paths. -/
inductive PyError where
  | valueError
  | keyError
  | attributeError
  | typeError
  | indexError
  | logicError
  | runtimeError
  | unimplemented
deriving DecidableEq, Repr

/-! ## Branching object store (basetypes.py lines 41-376)

The universe store is embedded for scalar (string-keyed, number-valued)
attributes, for which the fork-time reference translation
(`translate_from_base` / `translate_to_base`, lines 336-349) is the
identity.  An object is identified by its `universe_history`, a list of
universe ids.  The store keeps, per history, the dictionary of the object
*materialized* at that history — either a live object that owns a
`__dictionary__` or the read-only clone created by `Universe.fork` (which
inherits the live object's dictionary at the old history, lines 83-88).
`live` lists the histories of the writable objects of the single related
universe class, and `fresh` is the next unused universe id.  Attribute
lookup on a dictionary-less object walks `ensure_base` (lines 314-325):
drop the last history element until a materialized history is found, and
read that single dictionary. -/

namespace AomgStore

abbrev History := List Nat

abbrev AttrMap := List (String × Nat)

structure UState where
  mat : List (History × AttrMap)
  live : List History
  fresh : Nat

/-- Python dictionary read. -/
def lookupMap : AttrMap → String → Option Nat
  | [], _ => none
  | (k, v) :: rest, key => if k = key then some v else lookupMap rest key

/-- Python dictionary write: replace in place or append (insertion
order). -/
def setMap : AttrMap → String → Nat → AttrMap
  | [], key, val => [(key, val)]
  | (k, v) :: rest, key, val =>
    if k = key then (k, val) :: rest else (k, v) :: setMap rest key val

/-- The `history_to_object` view restricted to materialized dictionaries:
which dictionary (if any) lives at a history. -/
def matLookup : List (History × AttrMap) → History → Option AttrMap
  | [], _ => none
  | (h, d) :: rest, key => if h = key then some d else matLookup rest key

def matUpdate : List (History × AttrMap) → History → AttrMap → List (History × AttrMap)
  | [], key, d => [(key, d)]
  | (h, d0) :: rest, key, d =>
    if h = key then (h, d) :: rest else (h, d0) :: matUpdate rest key d

/-- Embeds the `ensure_base` loop (lines 314-325): starting from a proper
prefix of the object's history, drop the last element until a history with
a materialized dictionary is found.  The fuel is the history length; `none`
models the loop running off the front of the history (a crash in Python,
which cannot happen for well-formed stores). -/
def findBase (mat : List (History × AttrMap)) : Nat → History → Option AttrMap
  | 0, _ => none
  | f + 1, h =>
    match h with
    | [] => none
    | _ =>
      match matLookup mat h with
      | some d => some d
      | none => findBase mat f h.dropLast

def ensure_base_dict (mat : List (History × AttrMap)) (h : History) : Option AttrMap :=
  findBase mat h.length h.dropLast

/-- The dictionary `__getattribute__` / `ensure_dictionary` consult for an
object at history `h`: its own dictionary when materialized, else the
nearest materialized base's dictionary (lines 190-207, 327-334; key and
value translation is the identity for scalar attributes). -/
def effDict (mat : List (History × AttrMap)) (h : History) : Option AttrMap :=
  match matLookup mat h with
  | some d => some d
  | none => ensure_base_dict mat h

/-- Embeds `BranchingObject.__getattribute__` for instance attributes
(lines 174-213): read the own or base dictionary; an absent key raises
`AttributeError`, modelled as `none`. -/
def getattr (s : UState) (h : History) (k : String) : Option Nat :=
  match effDict s.mat h with
  | some d => lookupMap d k
  | none => none

/-- Embeds `BranchingObject.__setattr__` (lines 147-169) together with
`ensure_dictionary` (lines 327-334): materialize the dictionary (copying
the base's) if absent, then store.  `none` models the crash when a
dictionary-less object has no base. -/
def setattr (s : UState) (h : History) (k : String) (v : Nat) : Option UState :=
  match effDict s.mat h with
  | some d => some ⟨matUpdate s.mat h (setMap d k v), s.live, s.fresh⟩
  | none => none

/-- Embeds `Universe.fork` plus `BranchingObject.fork` (lines 73-108,
265-271) for one related-universe class with scalar attributes: every live
object's dictionary stays behind at its old history (owned by the readonly
clone), every live history gains the fresh universe `B`, and the forked
copy of the target is a new dictionary-less object at the target's old
history extended by a second fresh universe `C`.  Returns (new store, the
live target's new history, the forked copy's history). -/
def fork (s : UState) (target : History) : UState × History × History :=
  let B := s.fresh
  let C := s.fresh + 1
  (⟨s.mat, (s.live.map (fun h => h ++ [B])) ++ [target ++ [C]], s.fresh + 2⟩,
   target ++ [B], target ++ [C])

/-- Store well-formedness: materialized histories are nonempty and every
universe id in use is below `fresh`. -/
def WF (s : UState) : Prop :=
  (∀ p ∈ s.mat, p.1 ≠ ([] : History) ∧ ∀ u ∈ p.1, u < s.fresh) ∧
  (∀ h ∈ s.live, ∀ u ∈ h, u < s.fresh)

/-- The spec's literal fork-isolation store: one object at history `[0]`
with attribute `sdf = 2`. -/
def storeEx : UState := ⟨[([0], [("sdf", 2)])], [[0]], 1⟩

end AomgStore

/-! ## Condition terms (basetypes.py lines 1059-1360, 1982-2002)

Condition objects are embedded as an inductive type.  Game objects inside
conditions (vertices, enum choices, ports) appear as numeric ids; the
mutable state they carry (`is_known`, `equivalent_to`, `impossible_values`,
...) is read through a `CondEnv` of lookup functions.  CPython compares
conditions by identity (`is`, and `==` defaults to identity); since the
Python code only ever compares a condition against a condition it was
derived from, identity coincides with structural equality here, and the
embedding uses structural equality. -/

namespace AomgCond

inductive Cond where
  | TrueCondition : Cond
  | FalseCondition : Cond
  | AtLeastCondition (count : Int) (conditions : List Cond)
  | PlaceholderCondition (name : String) (base : Option Nat)
  | VertexCondition (vertex : Nat)
  | EnumCondition (enum : Nat) (values : List String)
  | MovementPortReachableCondition (port : Nat)
deriving Repr

mutual

def Cond.decEq : (a b : Cond) → Decidable (a = b)
  | .TrueCondition, .TrueCondition => isTrue rfl
  | .TrueCondition, .FalseCondition => isFalse (fun h => by cases h)
  | .TrueCondition, .AtLeastCondition _ _ => isFalse (fun h => by cases h)
  | .TrueCondition, .PlaceholderCondition _ _ => isFalse (fun h => by cases h)
  | .TrueCondition, .VertexCondition _ => isFalse (fun h => by cases h)
  | .TrueCondition, .EnumCondition _ _ => isFalse (fun h => by cases h)
  | .TrueCondition, .MovementPortReachableCondition _ => isFalse (fun h => by cases h)
  | .FalseCondition, .TrueCondition => isFalse (fun h => by cases h)
  | .FalseCondition, .FalseCondition => isTrue rfl
  | .FalseCondition, .AtLeastCondition _ _ => isFalse (fun h => by cases h)
  | .FalseCondition, .PlaceholderCondition _ _ => isFalse (fun h => by cases h)
  | .FalseCondition, .VertexCondition _ => isFalse (fun h => by cases h)
  | .FalseCondition, .EnumCondition _ _ => isFalse (fun h => by cases h)
  | .FalseCondition, .MovementPortReachableCondition _ => isFalse (fun h => by cases h)
  | .AtLeastCondition _ _, .TrueCondition => isFalse (fun h => by cases h)
  | .AtLeastCondition _ _, .FalseCondition => isFalse (fun h => by cases h)
  | .AtLeastCondition c1 l1, .AtLeastCondition c2 l2 =>
    if h1 : c1 = c2 then
      match Cond.decEqList l1 l2 with
      | isTrue h2 => isTrue (by rw [h1, h2])
      | isFalse h2 => isFalse (by intro h; cases h; exact h2 rfl)
    else isFalse (by intro h; cases h; exact h1 rfl)
  | .AtLeastCondition _ _, .PlaceholderCondition _ _ => isFalse (fun h => by cases h)
  | .AtLeastCondition _ _, .VertexCondition _ => isFalse (fun h => by cases h)
  | .AtLeastCondition _ _, .EnumCondition _ _ => isFalse (fun h => by cases h)
  | .AtLeastCondition _ _, .MovementPortReachableCondition _ => isFalse (fun h => by cases h)
  | .PlaceholderCondition _ _, .TrueCondition => isFalse (fun h => by cases h)
  | .PlaceholderCondition _ _, .FalseCondition => isFalse (fun h => by cases h)
  | .PlaceholderCondition _ _, .AtLeastCondition _ _ => isFalse (fun h => by cases h)
  | .PlaceholderCondition n1 b1, .PlaceholderCondition n2 b2 =>
    if h1 : n1 = n2 then
      if h2 : b1 = b2 then isTrue (by rw [h1, h2])
      else isFalse (by intro h; cases h; exact h2 rfl)
    else isFalse (by intro h; cases h; exact h1 rfl)
  | .PlaceholderCondition _ _, .VertexCondition _ => isFalse (fun h => by cases h)
  | .PlaceholderCondition _ _, .EnumCondition _ _ => isFalse (fun h => by cases h)
  | .PlaceholderCondition _ _, .MovementPortReachableCondition _ => isFalse (fun h => by cases h)
  | .VertexCondition _, .TrueCondition => isFalse (fun h => by cases h)
  | .VertexCondition _, .FalseCondition => isFalse (fun h => by cases h)
  | .VertexCondition _, .AtLeastCondition _ _ => isFalse (fun h => by cases h)
  | .VertexCondition _, .PlaceholderCondition _ _ => isFalse (fun h => by cases h)
  | .VertexCondition v1, .VertexCondition v2 =>
    if h1 : v1 = v2 then isTrue (by rw [h1])
    else isFalse (by intro h; cases h; exact h1 rfl)
  | .VertexCondition _, .EnumCondition _ _ => isFalse (fun h => by cases h)
  | .VertexCondition _, .MovementPortReachableCondition _ => isFalse (fun h => by cases h)
  | .EnumCondition _ _, .TrueCondition => isFalse (fun h => by cases h)
  | .EnumCondition _ _, .FalseCondition => isFalse (fun h => by cases h)
  | .EnumCondition _ _, .AtLeastCondition _ _ => isFalse (fun h => by cases h)
  | .EnumCondition _ _, .PlaceholderCondition _ _ => isFalse (fun h => by cases h)
  | .EnumCondition _ _, .VertexCondition _ => isFalse (fun h => by cases h)
  | .EnumCondition e1 v1, .EnumCondition e2 v2 =>
    if h1 : e1 = e2 then
      if h2 : v1 = v2 then isTrue (by rw [h1, h2])
      else isFalse (by intro h; cases h; exact h2 rfl)
    else isFalse (by intro h; cases h; exact h1 rfl)
  | .EnumCondition _ _, .MovementPortReachableCondition _ => isFalse (fun h => by cases h)
  | .MovementPortReachableCondition _, .TrueCondition => isFalse (fun h => by cases h)
  | .MovementPortReachableCondition _, .FalseCondition => isFalse (fun h => by cases h)
  | .MovementPortReachableCondition _, .AtLeastCondition _ _ => isFalse (fun h => by cases h)
  | .MovementPortReachableCondition _, .PlaceholderCondition _ _ => isFalse (fun h => by cases h)
  | .MovementPortReachableCondition _, .VertexCondition _ => isFalse (fun h => by cases h)
  | .MovementPortReachableCondition _, .EnumCondition _ _ => isFalse (fun h => by cases h)
  | .MovementPortReachableCondition p1, .MovementPortReachableCondition p2 =>
    if h1 : p1 = p2 then isTrue (by rw [h1])
    else isFalse (by intro h; cases h; exact h1 rfl)

def Cond.decEqList : (a b : List Cond) → Decidable (a = b)
  | [], [] => isTrue rfl
  | [], _ :: _ => isFalse (fun h => by cases h)
  | _ :: _, [] => isFalse (fun h => by cases h)
  | a :: as, b :: bs =>
    match Cond.decEq a b, Cond.decEqList as bs with
    | isTrue h1, isTrue h2 => isTrue (by rw [h1, h2])
    | isFalse h1, _ => isFalse (by intro h; cases h; exact h1 rfl)
    | _, isFalse h2 => isFalse (by intro h; cases h; exact h2 rfl)

end

instance : DecidableEq Cond := Cond.decEq

/-- Inputs to the `AtLeast` constructor: a condition, a raw vertex, or an
arbitrarily nested Python sequence of such (`_flatten_and_append_conditions`
treats anything that is neither a `Condition` nor a `VertexType` as an
iterable). -/
inductive CondInput where
  | cond (c : Cond)
  | vertex (v : Nat)
  | listI (l : List CondInput)

mutual

/-- Embeds `_flatten_and_append_conditions(conditions, l)` (lines
1218-1225): a `Condition` is appended as-is, a raw vertex is wrapped in
`VertexCondition`, anything else is iterated recursively. -/
def flatten_and_append_conditions : CondInput → List Cond → List Cond
  | CondInput.cond c, l => l ++ [c]
  | CondInput.vertex v, l => l ++ [Cond.VertexCondition v]
  | CondInput.listI cs, l => flatten_and_append_list cs l

def flatten_and_append_list : List CondInput → List Cond → List Cond
  | [], l => l
  | c :: rest, l => flatten_and_append_list rest (flatten_and_append_conditions c l)

end

/-- Embeds the `AtLeast(count, *conditions)` constructor (lines 1227-1239):
`count <= 0` yields the `TrueCondition` singleton; after flattening,
`count > len` yields `FalseCondition`; `count == 1 == len` yields the
single condition; otherwise an `AtLeastCondition` node. -/
def AtLeast (count : Int) (conditions : CondInput) : Cond :=
  if count ≤ 0 then Cond.TrueCondition
  else
    let l := flatten_and_append_conditions conditions []
    if (l.length : Int) < count then Cond.FalseCondition
    else
      match l with
      | [c] => if count = 1 then c else Cond.AtLeastCondition count l
      | _ => Cond.AtLeastCondition count l

/-- Wraps an already-flattened list of conditions as constructor input (the
Python code frequently passes a list or generator of `Condition`s). -/
def condList (l : List Cond) : CondInput :=
  CondInput.listI (l.map CondInput.cond)

/-- Embeds `Any(*conditions)` (alias `Or`). -/
def Any (conditions : CondInput) : Cond := AtLeast 1 conditions

/-- Embeds `All(*conditions)` (alias `And`): flatten first, then require
all of the flattened conditions. -/
def All (conditions : CondInput) : Cond :=
  let l := flatten_and_append_conditions conditions []
  AtLeast (l.length : Int) (condList l)

/-- One step of the `vertex_counts` dictionary updates in
`find_necessary_vertices` / `find_sufficient_vertices`: increment the count
for `v`, inserting it at the end on first occurrence (Python dict
insertion order). -/
def bumpVertexCount (counts : List (Nat × Nat)) (v : Nat) : List (Nat × Nat) :=
  match counts with
  | [] => [(v, 1)]
  | (w, n) :: rest => if w = v then (w, n + 1) :: rest else (w, n) :: bumpVertexCount rest v

mutual

/-- Embeds `Condition.find_necessary_vertices` with its overrides (lines
1086-1087, 1202-1209, 1317-1319): a `VertexCondition` requires its vertex;
an `AtLeastCondition(n, m)` requires a vertex appearing in at least
`len(m) - n + 1` children; every other variant requires nothing. -/
def find_necessary_vertices : Cond → List Nat
  | Cond.VertexCondition v => [v]
  | Cond.AtLeastCondition count conditions =>
    let required : Int := (conditions.length : Int) - count + 1
    ((necessary_vertex_counts conditions []).filter
      (fun kv => decide (required ≤ (kv.2 : Int)))).map Prod.fst
  | _ => []

def necessary_vertex_counts : List Cond → List (Nat × Nat) → List (Nat × Nat)
  | [], acc => acc
  | c :: rest, acc =>
    necessary_vertex_counts rest ((find_necessary_vertices c).foldl bumpVertexCount acc)

end

mutual

/-- Embeds `Condition.find_sufficient_vertices` with its overrides (lines
1089-1090, 1211-1216, 1321-1323): dual to the necessary case, a vertex must
appear in at least `count` children of an `AtLeastCondition`. -/
def find_sufficient_vertices : Cond → List Nat
  | Cond.VertexCondition v => [v]
  | Cond.AtLeastCondition count conditions =>
    ((sufficient_vertex_counts conditions []).filter
      (fun kv => decide (count ≤ (kv.2 : Int)))).map Prod.fst
  | _ => []

def sufficient_vertex_counts : List Cond → List (Nat × Nat) → List (Nat × Nat)
  | [], acc => acc
  | c :: rest, acc =>
    sufficient_vertex_counts rest ((find_sufficient_vertices c).foldl bumpVertexCount acc)

end

/-- The `name` argument of `substitute`: placeholder substitution passes a
string, vertex-elimination (in `_combine_equivalent_vertices`) passes a
vertex object. -/
inductive SubName where
  | str (s : String)
  | vert (v : Nat)
deriving DecidableEq, Repr

mutual

/-- Embeds `Condition.substitute(name, condition, base)` with its overrides
(lines 1069-1070, 1152-1156, 1261-1264, 1303-1306): placeholders match on
name when their base is `None` or equal to `base`; vertex conditions match
on the vertex when `base` is `None`; `AtLeast` rewrites children and keeps
identity when nothing changed. -/
def substitute : Cond → SubName → Cond → Option Nat → Cond
  | Cond.AtLeastCondition cnt cs, nm, r, b =>
    let new := substituteList cs nm r b
    if new = cs then Cond.AtLeastCondition cnt cs else Cond.AtLeastCondition cnt new
  | Cond.PlaceholderCondition pn pb, nm, r, b =>
    if nm = SubName.str pn ∧ (pb = none ∨ pb = b) then r
    else Cond.PlaceholderCondition pn pb
  | Cond.VertexCondition v, nm, r, b =>
    if nm = SubName.vert v ∧ b = none then r else Cond.VertexCondition v
  | c, _, _, _ => c

def substituteList : List Cond → SubName → Cond → Option Nat → List Cond
  | [], _, _, _ => []
  | c :: rest, nm, r, b => substitute c nm r b :: substituteList rest nm r b

end

mutual

/-- Embeds `Condition.set_base(vertex)` with its overrides (lines
1072-1073, 1158-1162, 1266-1269): only placeholders with no base adopt the
new base; `AtLeast` maps over children keeping identity when unchanged. -/
def set_base : Cond → Option Nat → Cond
  | Cond.AtLeastCondition cnt cs, b =>
    let new := set_base_list cs b
    if new = cs then Cond.AtLeastCondition cnt cs else Cond.AtLeastCondition cnt new
  | Cond.PlaceholderCondition pn pb, b =>
    if pb = none ∧ b ≠ none then Cond.PlaceholderCondition pn b
    else Cond.PlaceholderCondition pn pb
  | c, _ => c

def set_base_list : List Cond → Option Nat → List Cond
  | [], _ => []
  | c :: rest, b => set_base c b :: set_base_list rest b

end

/-- The mutable object state read (never written) by `simplify`: vertex
flags, enum choice state, and for `MovementPortReachableCondition` the
port's committed connections as pairs (id of the peer's `can_exit` vertex,
id of the peer's parent's `access_any_state` vertex). -/
structure CondEnv where
  vertexKnown : Nat → Bool
  vertexAccess : Nat → Bool
  vertexEquiv : Nat → Option Nat
  enumKnown : Nat → Bool
  enumValue : Nat → String
  enumImpossible : Nat → List String
  portKnown : Nat → Bool
  portConns : Nat → List (Nat × Nat)

/-- Maps a fallible function over a list, propagating failure (used for
the per-child recursion of `AtLeastCondition.simplify`, where failure
models non-termination of the Python recursion). -/
def mapOpt (f : α → Option β) : List α → Option (List β)
  | [] => some []
  | a :: as =>
    match f a, mapOpt f as with
    | some b, some bs => some (b :: bs)
    | _, _ => none

/-- The per-child test setting the `changed` flag in
`AtLeastCondition.simplify`: the simplified child `p.2` is known
true/false, or differs from the original child `p.1` (Python `is not`,
modelled structurally). -/
def changedTest (p : Cond × Cond) : Bool :=
  decide (p.2 = Cond.TrueCondition) || decide (p.2 = Cond.FalseCondition) ||
  decide (p.2 ≠ p.1)

/-- Embeds `simplify` for every condition variant (lines 1075-1081,
1099-1100, 1111-1112, 1172-1194, 1293-1301, 1345-1357, 1995-1999).  The
fuel counts recursion depth (the Python recursion can diverge on an
`equivalent_to` cycle); `none` models non-termination.  `AtLeastCondition`
simplifies its children, drops known-true/false ones while decrementing the
count by the trues, and rebuilds through the `AtLeast` constructor exactly
when something changed (Python `is` checks become structural equality). -/
def simplify (env : CondEnv) : Nat → Cond → Option Cond
  | 0 => fun _ => none
  | f + 1 => fun c =>
    match c with
    | Cond.TrueCondition => some Cond.TrueCondition
    | Cond.FalseCondition => some Cond.FalseCondition
    | Cond.PlaceholderCondition pn pb => some (Cond.PlaceholderCondition pn pb)
    | Cond.VertexCondition v =>
      if env.vertexKnown v then
        some (if env.vertexAccess v then Cond.TrueCondition else Cond.FalseCondition)
      else
        match env.vertexEquiv v with
        | some w => simplify env f (Cond.VertexCondition w)
        | none => some (Cond.VertexCondition v)
    | Cond.EnumCondition e vals =>
      if env.enumKnown e then
        some (if env.enumValue e ∈ vals then Cond.TrueCondition else Cond.FalseCondition)
      else
        let elim := vals.filter (fun v => decide (v ∈ env.enumImpossible e))
        if elim = [] then some (Cond.EnumCondition e vals)
        else
          let newVals := vals.filter (fun v => decide (¬ v ∈ elim))
          if newVals = [] then some Cond.FalseCondition
          else some (Cond.EnumCondition e newVals)
    | Cond.AtLeastCondition cnt cs =>
      match mapOpt (simplify env f) cs with
      | none => none
      | some rs =>
        let trues := (rs.filter (fun s => decide (s = Cond.TrueCondition))).length
        let kept := rs.filter
          (fun s => decide (s ≠ Cond.TrueCondition ∧ s ≠ Cond.FalseCondition))
        let changed := (cs.zip rs).any changedTest
        if changed then some (AtLeast (cnt - (trues : Int)) (condList kept))
        else some (Cond.AtLeastCondition cnt cs)
    | Cond.MovementPortReachableCondition p =>
      if env.portKnown p then
        simplify env f (Any (condList ((env.portConns p).map (fun pr =>
          All (CondInput.listI [CondInput.vertex pr.1, CondInput.vertex pr.2])))))
      else some (Cond.MovementPortReachableCondition p)

mutual

/-- Fuel that suffices to re-simplify a term already produced by
`simplify`: one unit per `AtLeastCondition` nesting level (the other
variants return in a single step when already simplified). -/
def cfuel : Cond → Nat
  | Cond.AtLeastCondition _ cs => cfuelList cs + 1
  | _ => 1

def cfuelList : List Cond → Nat
  | [] => 1
  | c :: rest => max (cfuel c) (cfuelList rest)

end

/-- A concrete condition environment for evaluation: vertex 5 is known
reachable, enum choices are unknown with impossible value "b", ports are
unknown. -/
def envW : CondEnv :=
  ⟨fun v => decide (v = 5), fun _ => true, fun _ => none,
   fun _ => false, fun _ => "", fun _ => ["b"], fun _ => false, fun _ => []⟩

def cW : Cond :=
  Cond.AtLeastCondition 2 [Cond.VertexCondition 5,
    Cond.PlaceholderCondition "x" none, Cond.FalseCondition]

end AomgCond

/-! ## Choices: `ChoiceType.make` (basetypes.py lines 775-786)

A choice is embedded by the three attributes `make` consults: `known`,
`strategy`, `default`.  Strategies are opaque ids; their `make_choice`
behaviour is a parameter `mc` (a strategy mutates the choice and returns a
token or `None`).  `set_value` runs `test_constraints` (the base class
accepts everything), stores the value, and marks the choice known; the
`on_set` / `on_choice` / `updated` notification hooks touch only
scheduling metadata and are not part of the modelled state. -/

namespace AomgChoice

/-- The `default` attribute holds either a `ChoiceStrategy` or a plain value. -/
inductive DefaultV where
  | strat (s : Nat)
  | val (v : Nat)
deriving DecidableEq, Repr

structure ChoiceS where
  known : Bool
  strategy : Option Nat
  default : Option DefaultV
  value : Option Nat
deriving DecidableEq, Repr

/-- Behaviour of `ChoiceStrategy.make_choice`: given the strategy id and the
choice, return (result, mutated choice); the result is an exception or an
optional token. -/
def MakeChoiceFn : Type := Nat → ChoiceS → (Except PyError (Option String)) × ChoiceS

/-- Embeds `ChoiceType.set_value`: `test_constraints` of the base class
accepts every value, then the value is stored and the choice marked known. -/
def set_value (c : ChoiceS) (v : Nat) : ChoiceS :=
  { c with value := some v, known := true }

/-- Embeds `ChoiceType.make`: if known, no-op returning `None`; else use
`strategy`; else promote a strategy-valued `default` to `strategy`; else
`set_value(default)`; else raise `ValueError` ("%r must have a value,
strategy, or default before make() is called."). -/
def make (mc : MakeChoiceFn) (c : ChoiceS) : (Except PyError (Option String)) × ChoiceS :=
  if c.known then (Except.ok none, c)
  else
    match c.strategy with
    | some st => mc st c
    | none =>
      match c.default with
      | some (DefaultV.strat s) => mc s { c with strategy := some s }
      | some (DefaultV.val v) => (Except.ok none, set_value c v)
      | none => (Except.error PyError.valueError, c)

/-- A strategy environment that never does anything; only used to
instantiate counterexamples (the no-default path never consults it). -/
def mcNull : MakeChoiceFn := fun _ c => (Except.ok none, c)

/-- A fresh choice with no value, strategy or default. -/
def freshChoice : ChoiceS := ⟨false, none, none, none⟩

end AomgChoice

/-! ## Ports: connections (basetypes.py lines 1732-1875, 378-524)

`chosen_connections` is a `BranchingOrderedDictionary`; at the level these
claims need it behaves as an insertion-ordered association list whose
`__setitem__` replaces in place or appends, and whose `__delitem__` removes
the entry — raising `AttributeError` when the key is absent, because it
calls `popattr(('_valuefor', key))` whose `getattr` fails (lines 393-394,
217-226, 238-241) without the `KeyError` translation that `__getitem__`
performs.  Ports are numeric ids; `isinstance(other, self.compatible_types)`
becomes the `compat` relation; `known` / bound attributes live in `PortS`.
`mark_fast_deduction` touches only the world's deduction queue and is not
part of the modelled state. -/

namespace AomgPorts

abbrev PId := Nat

structure PortS where
  known : Bool
  maximum_connections : Option Int
  maximum_unique_connections : Option Int
  impossible_connections : List PId
  chosen_connections : List (PId × Int)

structure PWorld where
  ports : PId → PortS
  compat : PId → PId → Bool

/-- `d.get(key, default)`. -/
def dictGet : List (PId × Int) → PId → Int → Int
  | [], _, dft => dft
  | (k, v) :: rest, key, dft => if k = key then v else dictGet rest key dft

/-- `key in d`. -/
def dictMem : List (PId × Int) → PId → Bool
  | [], _ => false
  | (k, _) :: rest, key => if k = key then true else dictMem rest key

/-- `d[key]` as an option (for stating symmetry). -/
def dictFind : List (PId × Int) → PId → Option Int
  | [], _ => none
  | (k, v) :: rest, key => if k = key then some v else dictFind rest key

/-- `d[key] = value`: replace in place or append. -/
def dictSet : List (PId × Int) → PId → Int → List (PId × Int)
  | [], key, v => [(key, v)]
  | (k, v0) :: rest, key, v =>
    if k = key then (k, v) :: rest else (k, v0) :: dictSet rest key v

/-- `del d[key]`: remove the entry; an absent key raises `AttributeError`
(via `popattr`, see the section comment). -/
def dictDel : List (PId × Int) → PId → Except PyError (List (PId × Int))
  | [], _ => Except.error PyError.attributeError
  | (k, v) :: rest, key =>
    if k = key then Except.ok rest
    else
      match dictDel rest key with
      | Except.ok l => Except.ok ((k, v) :: l)
      | Except.error e => Except.error e

/-- `sum(d.values())`. -/
def sumValues : List (PId × Int) → Int
  | [] => 0
  | (_, v) :: rest => v + sumValues rest

/-- The projected number of unique connections `test_connect` computes for
the `maximum_unique_connections` check (lines 1824-1827). -/
def uniqProjected (w : PWorld) (p q : PId) (count : Int) : Int :=
  ((w.ports p).chosen_connections.length : Int) -
    (if dictMem (w.ports p).chosen_connections q then 1 else 0) +
    (if count ≠ 0 then 1 else 0)

/-- True when the `maximum_unique_connections` bound is set and would be
exceeded. -/
def uniq_violation (w : PWorld) (p q : PId) (count : Int) : Bool :=
  match (w.ports p).maximum_unique_connections with
  | some mu => decide (uniqProjected w p q count > mu)
  | none => false

/-- The projected total connection count for the `maximum_connections`
check (lines 1828-1831). -/
def connProjected (w : PWorld) (p q : PId) (count : Int) : Int :=
  sumValues (w.ports p).chosen_connections -
    dictGet (w.ports p).chosen_connections q 0 + count

/-- True when the `maximum_connections` bound is set and would be
exceeded. -/
def conn_violation (w : PWorld) (p q : PId) (count : Int) : Bool :=
  match (w.ports p).maximum_connections with
  | some m => decide (connProjected w p q count > m)
  | none => false

/-- The non-recursive checks of `PortType.test_connect` (lines 1816-1833)
run for one side: negative count, already-known port, incompatible type,
the `maximum_unique_connections` bound, the `maximum_connections` bound,
and `impossible_connections` membership, in source order (each raising
`ValueError`). -/
def test_connect_one (w : PWorld) (p q : PId) (count : Int) : Except PyError Unit :=
  if count < 0 then Except.error PyError.valueError
  else if (w.ports p).known then Except.error PyError.valueError
  else if ¬ w.compat p q then Except.error PyError.valueError
  else if uniq_violation w p q count then Except.error PyError.valueError
  else if conn_violation w p q count then Except.error PyError.valueError
  else if q ∈ (w.ports p).impossible_connections then Except.error PyError.valueError
  else Except.ok ()

/-- Embeds `PortType.test_connect(other, count, test_other)` (lines
1816-1835): own checks, then the peer's checks once. -/
def test_connect (w : PWorld) (p q : PId) (count : Int) (test_other : Bool) :
    Except PyError Unit :=
  match test_connect_one w p q count with
  | Except.error e => Except.error e
  | Except.ok _ => if test_other then test_connect_one w q p count else Except.ok ()

def setConns (w : PWorld) (p : PId) (d : List (PId × Int)) : PWorld :=
  ⟨fun i => if i = p then { w.ports p with chosen_connections := d } else w.ports i,
   w.compat⟩

/-- Embeds `PortType.connect(other, count)` (lines 1837-1851): validate via
`test_connect`, then for `count == 0` delete the pair from both sides'
dictionaries (sequentially, as the Python statements run), otherwise store
`count` on both sides.  The Python body's `commit_impossible = False` is a
dead local assignment and `mark_fast_deduction` only queues deductions. -/
def connect (w : PWorld) (p q : PId) (count : Int) : Except PyError PWorld :=
  match test_connect w p q count true with
  | Except.error e => Except.error e
  | Except.ok _ =>
    if count = 0 then
      match dictDel (w.ports p).chosen_connections q with
      | Except.error e => Except.error e
      | Except.ok d1 =>
        let w1 := setConns w p d1
        match dictDel (w1.ports q).chosen_connections p with
        | Except.error e => Except.error e
        | Except.ok d2 => Except.ok (setConns w1 q d2)
    else
      let w1 := setConns w p (dictSet (w.ports p).chosen_connections q count)
      Except.ok (setConns w1 q (dictSet (w1.ports q).chosen_connections p count))

/-- Embeds `PortType.multi_connect(other, count)` (lines 1853-1855). -/
def multi_connect (w : PWorld) (p q : PId) (count : Int) : Except PyError PWorld :=
  connect w p q (dictGet (w.ports p).chosen_connections q 0 + count)

/-- Embeds `PortType.disconnect(other, count)` (lines 1860-1868). -/
def disconnect (w : PWorld) (p q : PId) (count : Option Int) : Except PyError PWorld :=
  match count with
  | none => connect w p q 0
  | some c =>
    if dictGet (w.ports p).chosen_connections q 0 - c < 0 then
      Except.error PyError.valueError
    else connect w p q (dictGet (w.ports p).chosen_connections q 0 - c)

inductive POp where
  | connectOp (p q : PId) (count : Int)
  | multiConnectOp (p q : PId) (count : Int)
  | disconnectOp (p q : PId) (count : Option Int)

def runOp (w : PWorld) : POp → Except PyError PWorld
  | POp.connectOp p q c => connect w p q c
  | POp.multiConnectOp p q c => multi_connect w p q c
  | POp.disconnectOp p q c => disconnect w p q c

def runOps (w : PWorld) : List POp → Except PyError PWorld
  | [] => Except.ok w
  | op :: rest =>
    match runOp w op with
    | Except.error e => Except.error e
    | Except.ok w' => runOps w' rest

/-- The port connection invariant: peer symmetry, per-port key uniqueness
and positive counts (auxiliary strengthening), and the two cardinality
bounds. -/
def Inv (w : PWorld) : Prop :=
  (∀ p q, dictFind (w.ports p).chosen_connections q =
    dictFind (w.ports q).chosen_connections p) ∧
  (∀ p, ((w.ports p).chosen_connections.map Prod.fst).Nodup) ∧
  (∀ p, ∀ pr ∈ (w.ports p).chosen_connections, 1 ≤ pr.2) ∧
  (∀ p m, (w.ports p).maximum_connections = some m →
    sumValues (w.ports p).chosen_connections ≤ m) ∧
  (∀ p m, (w.ports p).maximum_unique_connections = some m →
    ((w.ports p).chosen_connections.length : Int) ≤ m)

/-- A world of fresh ports: nothing connected, all compatible, both
bounds 2. -/
def initW : PWorld := ⟨fun _ => ⟨false, some 2, some 2, [], []⟩, fun _ _ => true⟩

def opsEx : List POp :=
  [POp.connectOp 0 1 1, POp.multiConnectOp 0 1 1, POp.disconnectOp 0 1 (some 1)]

def runW0 : PWorld :=
  match runOps initW opsEx with
  | Except.ok w => w
  | Except.error _ => initW

end AomgPorts

/-! ## `RandomPortStrategy.eliminate_choice` (basetypes.py lines 570-588,
1949-1953)

`eliminate_choice` receives the token produced by `make_choice`: the string
`"COMMIT"` or the peer port's string path (`value.get_string_path()`, a
dotted string such as `"World.Game.Port2"`, line 1947).  The port choice
state records `commit_impossible` and the tuple `impossible_connections`.
For a non-`"COMMIT"` token the statement is
`choice.impossible_connections += choice.object_from_path(token)`; Python
evaluates the call first.  `GameObjectType.object_from_path` (lines
570-588) was written for tuple paths but receives the *string*: `path[0]`
is the one-character string of the first character, the root-finding loop
compares every ancestor's name against it, and on failure raises
`ValueError` (line 584); had a root matched, the second loop would index
`children` one character at a time (`KeyError` on a miss).  Game objects
are embedded as numeric ids in an object table carrying `name`, `parent`
and the `children` dict. -/

namespace AomgRPS

/-- A game object as `object_from_path` sees it. -/
structure GObj where
  name : String
  parent : Option Nat
  children : List (String × Nat)

/-- The object table (object id to object). -/
structure ObjWorld where
  objs : Nat → GObj

/-- A Python value appearing on the right of the `+=`: either a game object
or a tuple of objects. -/
inductive PyVal where
  | obj (o : Nat)
  | tup (l : List Nat)
deriving DecidableEq, Repr

/-- Python tuple concatenation `t + rhs`: defined only when `rhs` is itself
a tuple, otherwise `TypeError` (GameObjectType defines no `__radd__`). -/
def tupleConcat (t : List Nat) (rhs : PyVal) : Except PyError (List Nat) :=
  match rhs with
  | PyVal.tup l => Except.ok (t ++ l)
  | PyVal.obj _ => Except.error PyError.typeError

/-- The port-choice state consulted by `eliminate_choice`. -/
structure RPortChoice where
  commit_impossible : Bool
  impossible_connections : List Nat
deriving DecidableEq, Repr

/-- The root-finding loop of `object_from_path` (lines 576-582): walk the
whole ancestor chain of `self`, remembering the topmost object whose
`name` equals `path[0]`; fuel bounds the walk (`none` models an ancestor
cycle, impossible for well-formed trees). -/
def findRoot (w : ObjWorld) (c0 : String) : Nat → Nat → Option Nat → Option (Option Nat)
  | 0, _, _ => none
  | fuel + 1, o, acc =>
    let acc' := if (w.objs o).name = c0 then some o else acc
    match (w.objs o).parent with
    | none => some acc'
    | some p => findRoot w c0 fuel p acc'

/-- `parent.children[key]` on the plain `children` dict (line 540): a
missing key raises `KeyError`. -/
def childLookup (l : List (String × Nat)) (k : String) : Except PyError Nat :=
  match l with
  | [] => Except.error PyError.keyError
  | (k', v) :: rest => if k' = k then Except.ok v else childLookup rest k

/-- The descent loop of `object_from_path` (lines 585-587) over the
remaining `path` positions — for a string path these are its remaining
characters, looked up one at a time. -/
def walkPath (w : ObjWorld) : Nat → List Char → Except PyError Nat
  | parent, [] => Except.ok parent
  | parent, ch :: rest =>
    match childLookup (w.objs parent).children (String.mk [ch]) with
    | Except.error e => Except.error e
    | Except.ok nxt => walkPath w nxt rest

/-- Embeds `GameObjectType.object_from_path(self, path)` (lines 570-588)
as called by `eliminate_choice`: non-relative, with `path` a *string*, so
`path[0]` is its first character (as a one-character string; `IndexError`
on an empty string) and the descent indexes the remaining characters.  No
ancestor of a port is named by a single character, so the root search
fails with `ValueError` (line 584). -/
def object_from_path (w : ObjWorld) (fuel selfId : Nat) (path : String) :
    Option (Except PyError Nat) :=
  match path.data with
  | [] => some (Except.error PyError.indexError)
  | c0 :: rest =>
    match findRoot w (String.mk [c0]) fuel selfId none with
    | none => none
    | some none => some (Except.error PyError.valueError)
    | some (some root) => some (walkPath w root rest)

/-- Embeds `RandomPortStrategy.eliminate_choice` (lines 1949-1953):
`"COMMIT"` sets `commit_impossible`; any other token first evaluates
`choice.object_from_path(token)` and only then executes
`impossible_connections += <GameObject>` (a `tuple + GameObject`
concatenation). -/
def eliminate_choice (w : ObjWorld) (fuel selfId : Nat) (c : RPortChoice)
    (token : String) : Option (Except PyError RPortChoice) :=
  if token = "COMMIT" then
    some (Except.ok { c with commit_impossible := true })
  else
    match object_from_path w fuel selfId token with
    | none => none
    | some (Except.error e) => some (Except.error e)
    | some (Except.ok o) =>
      match tupleConcat c.impossible_connections (PyVal.obj o) with
      | Except.ok l => some (Except.ok { c with impossible_connections := l })
      | Except.error e => some (Except.error e)

/-- What the spec and the claim describe: `eliminate("COMMIT")` sets
`commit_impossible`, and `eliminate(peer_path)` appends exactly the
resolved peer to `impossible_connections`.  Modelled from the spec:
"eliminate(peer_path) appends to impossible_connections". -/
def eliminate_choice_spec (resolve : String → Nat) (c : RPortChoice)
    (token : String) : RPortChoice :=
  if token = "COMMIT" then { c with commit_impossible := true }
  else
    { c with impossible_connections := c.impossible_connections ++ [resolve token] }

/-- A concrete object tree: `World` (id 0) contains `Game` (id 1), which
contains the ports `Port` (id 2) and `Port2` (id 3). -/
def objWorldEx : ObjWorld :=
  ⟨fun o =>
    if o = 0 then ⟨"World", none, [("Game", 1)]⟩
    else if o = 1 then ⟨"Game", some 0, [("Port", 2), ("Port2", 3)]⟩
    else if o = 2 then ⟨"Port", some 1, []⟩
    else ⟨"Port2", some 1, []⟩⟩

/-- A spec-side path resolver and the port-choice state used for concrete
evaluation. -/
def resolveEx : String → Nat := fun s => s.length

def rpcEx : RPortChoice := ⟨false, [7]⟩

end AomgRPS

/-! ## Vertex deduction engine (basetypes.py lines 1362-1692)

A vertex is a numeric id; the engine state maps each id to the fields
`fast_deduce` and its helpers touch: `is_known`, `known_access`,
`equivalent_to`, the three condition slots, `condition_fixed`, and the
memoized `_necessary_vertices` / `_sufficient_vertices` (Python dicts used
as insertion-ordered sets, embedded as lists of keys).  `updated()` (lines
671-683) only re-queues dependents and recomputes dependency sets —
scheduling metadata outside this state — so it is the identity here.
Python `while` loops and the recursive `equivalent_to` chases take fuel;
`none` models divergence.  The DFS stacks are kept top-first (Python
appends and pops at the end of its lists), and each frame is the reversed
copy of the vertex's memoized list (Python copies it with `list(...)` and
pops from the end). -/

namespace AomgVertex

open AomgCond

structure VState where
  is_known : Bool
  known_access : Bool
  equivalent_to : Option Nat
  condition : Cond
  necessary_condition : Cond
  sufficient_condition : Cond
  condition_fixed : Bool
  necessary_vertices : List Nat
  sufficient_vertices : List Nat

structure Engine where
  vs : Nat → VState

def Engine.upd (e : Engine) (i : Nat) (s : VState) : Engine :=
  ⟨fun j => if j = i then s else e.vs j⟩

/-- The condition environment an engine presents to `simplify`: vertex
flags come from the engine; the cycle instances contain no enum or port
conditions, so those components are inert. -/
def Engine.env (e : Engine) : CondEnv :=
  ⟨fun v => (e.vs v).is_known, fun v => (e.vs v).known_access,
   fun v => (e.vs v).equivalent_to,
   fun _ => false, fun _ => "", fun _ => [], fun _ => false, fun _ => []⟩

/-- Embeds `VertexType._set_known_access` (lines 1445-1452): record the
access value, mark known, freeze all three conditions to the matching
constant.  When already known the Python code asserts the same value and
returns; the modelled runs never violate the assertion. -/
def set_known_access (e : Engine) (v : Nat) (value : Bool) : Engine :=
  if (e.vs v).is_known then e
  else
    e.upd v { e.vs v with
      known_access := value, is_known := true,
      condition := if value then Cond.TrueCondition else Cond.FalseCondition,
      necessary_condition := if value then Cond.TrueCondition else Cond.FalseCondition,
      sufficient_condition := if value then Cond.TrueCondition else Cond.FalseCondition }

/-- Embeds `VertexType._set_equivalent_to` (lines 1454-1472): walk the
target's `equivalent_to` chain; a loop back to `self` makes the vertex
known unreachable, a known vertex is inherited, otherwise the chain's end
becomes the new `equivalent_to`. -/
def set_equivalent_to (e : Engine) (v : Nat) : Nat → Nat → Option Engine
  | 0, _ => none
  | f + 1, w =>
    if w = v then
      some (set_known_access (e.upd v { e.vs v with equivalent_to := none }) v false)
    else if (e.vs w).is_known then
      some (set_known_access (e.upd v { e.vs v with equivalent_to := none }) v
        (e.vs w).known_access)
    else
      match (e.vs w).equivalent_to with
      | none => some (e.upd v { e.vs v with equivalent_to := some w })
      | some x => set_equivalent_to e v f x

/-- Embeds `VertexType._simplify` (lines 1474-1500): simplify the exact
condition (true/false decides the vertex, a bare `VertexCondition` makes
it equivalent), then the necessary condition (false decides it), then the
sufficient condition (true decides it); each changed slot is stored. -/
def vsimplify (fuel : Nat) (e : Engine) (v : Nat) : Option (Engine × Bool) :=
  match simplify e.env fuel (e.vs v).condition with
  | none => none
  | some sc =>
    if sc = Cond.TrueCondition then some (set_known_access e v true, true)
    else if sc = Cond.FalseCondition then some (set_known_access e v false, true)
    else
      let p1 : Engine × Bool :=
        if sc = (e.vs v).condition then (e, false)
        else (e.upd v { e.vs v with condition := sc }, true)
      match sc with
      | Cond.VertexCondition w =>
        match set_equivalent_to p1.1 v fuel w with
        | none => none
        | some e2 => some (e2, true)
      | _ =>
        match simplify p1.1.env fuel (p1.1.vs v).necessary_condition with
        | none => none
        | some nc =>
          if nc = Cond.FalseCondition then some (set_known_access p1.1 v false, true)
          else
            let p2 : Engine × Bool :=
              if nc = (p1.1.vs v).necessary_condition then p1
              else (p1.1.upd v { p1.1.vs v with necessary_condition := nc }, true)
            match simplify p2.1.env fuel (p2.1.vs v).sufficient_condition with
            | none => none
            | some fc =>
              if fc = Cond.TrueCondition then some (set_known_access p2.1 v true, true)
              else
                if fc = (p2.1.vs v).sufficient_condition then some p2
                else some (p2.1.upd v { p2.1.vs v with sufficient_condition := fc }, true)

/-- Embeds `VertexType._maybe_simplify` (lines 1502-1513): nothing to do
when known; an equivalent vertex inherits known state or shortcuts chains;
otherwise run `_simplify`. -/
def maybe_simplify (fuel : Nat) (e : Engine) (v : Nat) : Option (Engine × Bool) :=
  if (e.vs v).is_known then some (e, false)
  else
    match (e.vs v).equivalent_to with
    | some w =>
      if (e.vs w).is_known then some (set_known_access e v (e.vs w).known_access, true)
      else
        match (e.vs w).equivalent_to with
        | some _ =>
          match set_equivalent_to e v fuel w with
          | none => none
          | some e' => some (e', true)
        | none => some (e, false)
    | none => vsimplify fuel e v

/-- `And(self._condition, self._necessary_condition)` (line 1613). -/
def AndCC (a b : Cond) : Cond :=
  All (CondInput.listI [CondInput.cond a, CondInput.cond b])

/-- `Or(self._condition, self._sufficient_condition)` (line 1557). -/
def OrCC (a b : Cond) : Cond :=
  Any (CondInput.listI [CondInput.cond a, CondInput.cond b])

def newNecessary (e : Engine) (v : Nat) : List Nat :=
  find_necessary_vertices (AndCC (e.vs v).condition (e.vs v).necessary_condition)

def newSufficient (e : Engine) (v : Nat) : List Nat :=
  find_sufficient_vertices (OrCC (e.vs v).condition (e.vs v).sufficient_condition)

/-- Append the members of `xs` not already present (preserving order) and
report whether anything was added, mirroring the `found` bookkeeping of
the loop-detection preambles. -/
def addNew : List Nat → List Nat → List Nat × Bool
  | l, [] => (l, false)
  | l, x :: rest =>
    if x ∈ l then addNew l rest
    else
      match addNew (l ++ [x]) rest with
      | (l', _) => (l', true)

/-- `for item in vertex_stack: item._set_known_access(False)` in Python
list order (the model's stack is top-first, hence the reverse). -/
def stackSetFalse (e : Engine) (vstack : List Nat) : Engine :=
  vstack.reverse.foldl (fun acc v => set_known_access acc v false) e

def stackSetTrue (e : Engine) (vstack : List Nat) : Engine :=
  vstack.reverse.foldl (fun acc v => set_known_access acc v true) e

/-- `vertex_stack[vertex_stack.index(x):]` in Python order, for the
top-first stack representation. -/
def stackFrom (vstack : List Nat) (x : Nat) : List Nat :=
  ((vstack.takeWhile (fun y => decide (y ≠ x))) ++ [x]).reverse

/-- The `while vertex_stack` loop of `_check_for_necessity_loops` (lines
1625-1668): pop exhausted frames; a necessary vertex already on the stack
closes a necessity loop (everything on the stack becomes known
unreachable); a visited-but-popped vertex is skipped; otherwise the vertex
is simplified — if it became known reachable it is dropped from the
current vertex's memoized set, if known unreachable the stack is
unreachable — and else its new necessary vertices are memoized and it is
pushed. -/
def necLoop (e : Engine) (self : Nat) :
    Nat → List Nat → List Nat → List (List Nat) → Option (Engine × Bool)
  | 0, _, _, _ => none
  | _ + 1, _, [], _ => some (e, false)
  | f + 1, visited, current :: vrest, frames =>
    match frames with
    | [] => none
    | frame :: frest =>
      match frame with
      | [] => necLoop e self f visited vrest frest
      | necessary :: frame' =>
        if necessary ∈ visited then
          if necessary ∈ current :: vrest then
            some (stackSetFalse e (current :: vrest), true)
          else necLoop e self f visited (current :: vrest) (frame' :: frest)
        else
          match maybe_simplify f e necessary with
          | none => none
          | some (e1, _) =>
            if (e1.vs necessary).is_known then
              if (e1.vs necessary).known_access then
                necLoop (e1.upd current { e1.vs current with
                    necessary_vertices := (e1.vs current).necessary_vertices.erase necessary })
                  self f visited (current :: vrest) (frame' :: frest)
              else
                some (stackSetFalse e1 (current :: vrest), true)
            else
              match addNew (e1.vs necessary).necessary_vertices (newNecessary e1 necessary) with
              | (nv, _) =>
                necLoop (e1.upd necessary { e1.vs necessary with necessary_vertices := nv })
                  self f (necessary :: visited) (necessary :: current :: vrest)
                  (nv.reverse :: frame' :: frest)

/-- Embeds `VertexType._check_for_necessity_loops` (lines 1611-1668):
memoize the necessary vertices of `And(condition, necessary_condition)`;
without new ones return `False`; otherwise run the DFS. -/
def check_for_necessity_loops (fuel : Nat) (e : Engine) (v : Nat) :
    Option (Engine × Bool) :=
  match addNew (e.vs v).necessary_vertices (newNecessary e v) with
  | (nv, found) =>
    let e1 := e.upd v { e.vs v with necessary_vertices := nv }
    if found then necLoop e1 v fuel [v] [v] [nv.reverse]
    else some (e1, false)

/-- `while vertex.equivalent_to is not None: vertex = vertex.equivalent_to`
(lines 1519-1520 and 1394-1395). -/
def chaseRoot (e : Engine) : Nat → Nat → Option Nat
  | 0, _ => none
  | f + 1, v =>
    match (e.vs v).equivalent_to with
    | none => some v
    | some w => chaseRoot e f w

def collectRootsAux (fuel : Nat) (e : Engine) :
    List Nat → List Nat → Nat → Option (List Nat × Nat)
  | [], acc, last => some (acc, last)
  | v :: rest, acc, _ =>
    match chaseRoot e fuel v with
    | none => none
    | some r => collectRootsAux fuel e rest (if r ∈ acc then acc else acc ++ [r]) r

/-- The `condition_vertices` set of `_combine_equivalent_vertices` (lines
1516-1521) with its insertion order, together with the loop variable's
final value (the chain root of the last member), which becomes
`base_vertex`. -/
def collectRoots (fuel : Nat) (e : Engine) (l : List Nat) : Option (List Nat × Nat) :=
  collectRootsAux fuel e l [] 0

def substAllFalse (cvs : List Nat) (c : Cond) : Cond :=
  cvs.foldl (fun c v => substitute c (SubName.vert v) Cond.FalseCondition none) c

def setEquivAll (fuel : Nat) (base : Nat) : Engine → List Nat → Option Engine
  | e, [] => some e
  | e, v :: rest =>
    if v = base then setEquivAll fuel base e rest
    else
      match set_equivalent_to e v fuel base with
      | none => none
      | some e' => setEquivAll fuel base e' rest

/-- Embeds `VertexType._combine_equivalent_vertices` (lines 1515-1553).
Degenerate case: a single chain root is sufficient for itself and is
removed (substituted by `False`) from its own three conditions.  General
case: the base (the last member's root) receives the `Or` of all members'
conditions with every member substituted by `False` and simplified, and
every other member becomes equivalent to the base.  The Python
`condition_vertices` set is modelled with insertion order. -/
def combine_equivalent_vertices (fuel : Nat) (e : Engine) (vertices : List Nat) :
    Option Engine :=
  match collectRoots fuel e vertices with
  | none => none
  | some (cvs, base) =>
    match cvs with
    | [] => none
    | [_] =>
      match vertices with
      | [] => none
      | v0 :: _ =>
        match simplify e.env fuel (substitute (e.vs v0).necessary_condition
            (SubName.vert v0) Cond.FalseCondition none) with
        | none => none
        | some nec' =>
          let e1 := e.upd v0 { e.vs v0 with necessary_condition := nec' }
          match chaseRoot e1 fuel v0 with
          | none => none
          | some r0 =>
            match simplify e1.env fuel (substitute ((e1.vs r0).condition)
                (SubName.vert v0) Cond.FalseCondition none) with
            | none => none
            | some c' =>
              let e2 := e1.upd v0 { e1.vs v0 with condition := c' }
              match simplify e2.env fuel (substitute ((e2.vs v0).sufficient_condition)
                  (SubName.vert v0) Cond.FalseCondition none) with
              | none => none
              | some s' => some (e2.upd v0 { e2.vs v0 with sufficient_condition := s' })
    | _ =>
      let nec1 := substAllFalse cvs (AtLeast 1 (condList (cvs.map
        (fun v => set_base (e.vs v).necessary_condition (some v)))))
      let con1 := substAllFalse cvs (AtLeast 1 (condList (cvs.map
        (fun v => set_base (e.vs v).condition (some v)))))
      let suf1 := substAllFalse cvs (AtLeast 1 (condList (cvs.map
        (fun v => set_base (e.vs v).sufficient_condition (some v)))))
      match simplify e.env fuel nec1, simplify e.env fuel con1,
          simplify e.env fuel suf1 with
      | some nec2, some con2, some suf2 =>
        setEquivAll fuel base
          (e.upd base
            { e.vs base with
              necessary_condition := nec2, condition := con2,
              sufficient_condition := suf2 }) vertices
      | _, _, _ => none

/-- The `while vertex_stack` loop of `_check_for_sufficiency_loops` (lines
1569-1609): dual to the necessity DFS — a sufficient vertex already on the
stack closes a sufficiency loop (the cycle members are merged into an
equivalence class); a vertex that simplified to known-reachable makes the
whole stack reachable; a known-unreachable one is dropped from the current
vertex's memoized set. -/
def sufLoop (fuel0 : Nat) (e : Engine) (self : Nat) :
    Nat → List Nat → List Nat → List (List Nat) → Option (Engine × Bool)
  | 0, _, _, _ => none
  | _ + 1, _, [], _ => some (e, false)
  | f + 1, visited, current :: vrest, frames =>
    match frames with
    | [] => none
    | frame :: frest =>
      match frame with
      | [] => sufLoop fuel0 e self f visited vrest frest
      | suff :: frame' =>
        if suff ∈ visited then
          if suff ∈ current :: vrest then
            match combine_equivalent_vertices fuel0 e
                (stackFrom (current :: vrest) suff) with
            | none => none
            | some e' => some (e', true)
          else sufLoop fuel0 e self f visited (current :: vrest) (frame' :: frest)
        else
          match maybe_simplify f e suff with
          | none => none
          | some (e1, _) =>
            if (e1.vs suff).is_known then
              if (e1.vs suff).known_access then
                some (stackSetTrue e1 (current :: vrest), true)
              else
                sufLoop fuel0 (e1.upd current { e1.vs current with
                    sufficient_vertices := (e1.vs current).sufficient_vertices.erase suff })
                  self f visited (current :: vrest) (frame' :: frest)
            else
              match addNew (e1.vs suff).sufficient_vertices (newSufficient e1 suff) with
              | (nv, _) =>
                sufLoop fuel0 (e1.upd suff { e1.vs suff with sufficient_vertices := nv })
                  self f (suff :: visited) (suff :: current :: vrest)
                  (nv.reverse :: frame' :: frest)

/-- Embeds `VertexType._check_for_sufficiency_loops` (lines 1555-1609). -/
def check_for_sufficiency_loops (fuel : Nat) (e : Engine) (v : Nat) :
    Option (Engine × Bool) :=
  match addNew (e.vs v).sufficient_vertices (newSufficient e v) with
  | (nv, found) =>
    let e1 := e.upd v { e.vs v with sufficient_vertices := nv }
    if found then sufLoop fuel e1 v fuel [v] [v] [nv.reverse]
    else some (e1, false)

/-- The `while ... and (necessity-check or sufficiency-check)` loop of
`fast_deduce` (lines 1674-1677); the short-circuiting `or` keeps the
mutations of a `False`-returning necessity check. -/
def fdLoop (e : Engine) (v : Nat) : Nat → Option Engine
  | 0 => none
  | f + 1 =>
    if (e.vs v).equivalent_to = none ∧ (e.vs v).is_known = false then
      match check_for_necessity_loops f e v with
      | none => none
      | some (e1, b1) =>
        if b1 then
          match maybe_simplify f e1 v with
          | none => none
          | some (e2, _) => fdLoop e2 v f
        else
          match check_for_sufficiency_loops f e1 v with
          | none => none
          | some (e2, b2) =>
            if b2 then
              match maybe_simplify f e2 v with
              | none => none
              | some (e3, _) => fdLoop e3 v f
            else some e2
    else some e

/-- Embeds `VertexType.fast_deduce` (lines 1670-1680): fix the condition,
simplify once, then loop the two cycle checks until neither reports a
change (the final `updated()` only touches scheduling metadata). -/
def fast_deduce (fuel : Nat) (e : Engine) (v : Nat) : Option Engine :=
  let e0 := e.upd v { e.vs v with condition_fixed := true }
  match maybe_simplify fuel e0 v with
  | none => none
  | some (e1, _) => fdLoop e1 v fuel

/-- A necessity cycle of length `n` over vertices `0..n-1`: every vertex
has the default placeholder exact and sufficient conditions, and its
necessary condition requires the next vertex in the cycle, so
`And(condition, necessary_condition)` makes the next vertex necessary,
circularly. -/
def cycleEngine (n : Nat) : Engine :=
  ⟨fun i =>
    { is_known := false, known_access := false, equivalent_to := none,
      condition := Cond.PlaceholderCondition "exact" (some i),
      necessary_condition := Cond.VertexCondition ((i + 1) % n),
      sufficient_condition := Cond.PlaceholderCondition "sufficient" (some i),
      condition_fixed := false, necessary_vertices := [], sufficient_vertices := [] }⟩

/-- A sufficiency cycle of length `n` over vertices `0..n-1`: every
vertex's sufficient condition is the next vertex in the cycle, so
`Or(condition, sufficient_condition)` makes the next vertex sufficient,
circularly. -/
def sufCycleEngine (n : Nat) : Engine :=
  ⟨fun i =>
    { is_known := false, known_access := false, equivalent_to := none,
      condition := Cond.PlaceholderCondition "exact" (some i),
      necessary_condition := Cond.PlaceholderCondition "necessary" (some i),
      sufficient_condition := Cond.VertexCondition ((i + 1) % n),
      condition_fixed := false, necessary_vertices := [], sufficient_vertices := [] }⟩

/-- `cycleEngine n` after `fast_deduce` has fixed vertex 0's condition and
the DFS has memoized the necessary vertex of every vertex up to `k`. -/
def necK (n k : Nat) : Engine :=
  ⟨fun i =>
    { is_known := false, known_access := false, equivalent_to := none,
      condition := Cond.PlaceholderCondition "exact" (some i),
      necessary_condition := Cond.VertexCondition ((i + 1) % n),
      sufficient_condition := Cond.PlaceholderCondition "sufficient" (some i),
      condition_fixed := decide (i = 0),
      necessary_vertices := if i ≤ k then [(i + 1) % n] else [],
      sufficient_vertices := [] }⟩

/-- `cycleEngine n` right after `fast_deduce` marks vertex 0's condition
fixed, before any memoization. -/
def necInit (n : Nat) : Engine :=
  ⟨fun i =>
    { is_known := false, known_access := false, equivalent_to := none,
      condition := Cond.PlaceholderCondition "exact" (some i),
      necessary_condition := Cond.VertexCondition ((i + 1) % n),
      sufficient_condition := Cond.PlaceholderCondition "sufficient" (some i),
      condition_fixed := decide (i = 0),
      necessary_vertices := [], sufficient_vertices := [] }⟩

/-- The DFS stack (top-first) after `k` pushes: `[k, k-1, …, 0]`.  The
visited set has the same members. -/
def stackK (k : Nat) : List Nat := (List.range (k + 1)).reverse

/-- The frame stack after `k` pushes: the top vertex's single pending
necessary (or sufficient) vertex on top of `k` exhausted frames. -/
def framesK (n k : Nat) : List (List Nat) := [(k + 1) % n] :: List.replicate k []

/-- The final engine of the necessity run: every stack member marked known
unreachable. -/
def necFin (n : Nat) : Engine := stackSetFalse (necK n (n - 1)) (stackK (n - 1))

/-- `sufCycleEngine n` right after `fast_deduce` marks vertex 0's condition
fixed, before any memoization. -/
def sufInit (n : Nat) : Engine :=
  ⟨fun i =>
    { is_known := false, known_access := false, equivalent_to := none,
      condition := Cond.PlaceholderCondition "exact" (some i),
      necessary_condition := Cond.PlaceholderCondition "necessary" (some i),
      sufficient_condition := Cond.VertexCondition ((i + 1) % n),
      condition_fixed := decide (i = 0),
      necessary_vertices := [], sufficient_vertices := [] }⟩

/-- The sufficiency run after the DFS has memoized the sufficient vertex of
every vertex up to `k`. -/
def sufK (n k : Nat) : Engine :=
  ⟨fun i =>
    { is_known := false, known_access := false, equivalent_to := none,
      condition := Cond.PlaceholderCondition "exact" (some i),
      necessary_condition := Cond.PlaceholderCondition "necessary" (some i),
      sufficient_condition := Cond.VertexCondition ((i + 1) % n),
      condition_fixed := decide (i = 0),
      necessary_vertices := [],
      sufficient_vertices := if i ≤ k then [(i + 1) % n] else [] }⟩

/-- The condition shapes that can appear as `AtLeast` children while
`_combine_equivalent_vertices` substitutes cycle members by `False`:
already-substituted `False`, untouched placeholders, vertex references. -/
def condOkP (c : Cond) : Prop :=
  c = Cond.FalseCondition ∨ (∃ pn pb, c = Cond.PlaceholderCondition pn pb) ∨
    (∃ x, c = Cond.VertexCondition x)

end AomgVertex

/-! ## Generation driver (basetypes.py lines 941-963, 965-1051)

`RandomFactory` and `WorldType.generate` are embedded over an abstract
world type `W`: the world's own deterministic methods (`fork`, the
mark-all tree walk, `deduce`, collecting unknown choice paths, `known`
lookup, `make`) become pure functions in a `WorldOps` record, exactly as
the shallow embedding turns every Python method into a function.  The one
genuine nondeterminism source in `generate` is `random.SystemRandom` in
`RandomFactory.__init__`, consulted only when `seed is None`; it is
modelled as an entropy oracle.  MD5 and the Mersenne-Twister `random()`
are deterministic library functions, abstracted as fields of `DriverEnv`
shared by all runs. -/

namespace AomgDriver

structure DriverEnv where
  utf8 : String → List Nat
  md5int : List Nat → Nat
  randFloat : Nat → Nat

structure RandomFactoryS where
  seed : List Nat

/-- Embeds `RandomFactory.__init__` (lines 942-950): a missing seed draws
16 bytes from `SystemRandom` (the oracle); a string seed is UTF-8
encoded; a bytes seed is stored as-is. -/
def randomFactoryInit (env : DriverEnv) (sysRandom : Nat → Nat)
    (seed : Option (String ⊕ List Nat)) : RandomFactoryS :=
  match seed with
  | none => ⟨(List.range 16).map (fun i => sysRandom i % 256)⟩
  | some s =>
    match s with
    | Sum.inl str => ⟨env.utf8 str⟩
    | Sum.inr bytes => ⟨bytes⟩

/-- Embeds `RandomFactory.__call__(data).random()` (lines 952-963): hash
`data ++ seed` with MD5, reinterpret as an integer, seed the PRNG, draw
the comparison key. -/
def rngRandom (env : DriverEnv) (f : RandomFactoryS) (data : String) : Nat :=
  env.randFloat (env.md5int (env.utf8 data ++ f.seed))

/-- The world's own methods consulted by `generate`, as pure functions.
`fork` returns (forked copy, relocated live world); `make` returns the
strategy token and the mutated world. -/
structure WorldOps (W : Type) (T : Type) where
  fork : W → W × W
  startGen : W → W
  markAll : W → W
  deduce : W → Except PyError W
  unknownChoicePaths : W → List (List String)
  isKnown : W → List String → Bool
  make : W → List String → Except PyError (T × W)

/-- The sort key of the choice loop: `rng('.'.join(path) + 'choice_order')`
(line 1018). -/
def sortKey (env : DriverEnv) (rng : RandomFactoryS) (path : List String) : Nat :=
  rngRandom env rng (String.intercalate "." path ++ "choice_order")

def insertBy (key : List String → Nat) (x : List String) :
    List (List String) → List (List String)
  | [] => [x]
  | y :: ys => if key x < key y then x :: y :: ys else y :: insertBy key x ys

/-- A stable ascending sort (Python `list.sort` is stable ascending). -/
def sortBy (key : List String → Nat) : List (List String) → List (List String)
  | [] => []
  | x :: xs => insertBy key x (sortBy key xs)

/-- The choice loop of `generate` (lines 1008-1049).  The pending choice
list is kept highest-key-first (Python sorts ascending and pops from the
end).  Each round: recollect and sort when empty (stopping when nothing is
unknown); skip choices that became known; otherwise snapshot-fork, `make`
the choice, push `(snapshot, path, token)` onto the backtrack stack and
re-deduce — a `LogicError` there hits the unimplemented-backtracking
`raise`.  Fuel exhaustion (`runtimeError`) models non-termination. -/
def generateLoop {W T : Type} (ops : WorldOps W T) (env : DriverEnv)
    (rng : RandomFactoryS) :
    Nat → W → List (List String) → List (W × List String × T) → Except PyError W
  | 0, _, _, _ => Except.error PyError.runtimeError
  | f + 1, w, choices, made =>
    match choices with
    | [] =>
      match (sortBy (sortKey env rng) (ops.unknownChoicePaths w)).reverse with
      | [] => Except.ok w
      | path :: rest => generateLoop ops env rng f w (path :: rest) made
    | path :: rest =>
      if ops.isKnown w path then generateLoop ops env rng f w rest made
      else
        match ops.fork w with
        | (saved, w1) =>
          match ops.make w1 path with
          | Except.error e => Except.error e
          | Except.ok (tok, w2) =>
            match ops.deduce w2 with
            | Except.error _ => Except.error PyError.unimplemented
            | Except.ok w3 =>
              generateLoop ops env rng f w3 (path :: rest) ((saved, path, tok) :: made)

/-- Embeds `WorldType.generate(seed)` (lines 987-1051): build the
`RandomFactory`, fork the world, set `started_generation`, queue every
object for deduction, run the deduction loop (a `LogicError` here
propagates), then run the choice loop. -/
def generate {W T : Type} (ops : WorldOps W T) (env : DriverEnv)
    (sysRandom : Nat → Nat) (fuel : Nat) (w : W)
    (seed : Option (String ⊕ List Nat)) : Except PyError W :=
  let rng := randomFactoryInit env sysRandom seed
  match ops.fork w with
  | (world0, _) =>
    let world1 := ops.markAll (ops.startGen world0)
    match ops.deduce world1 with
    | Except.error e => Except.error e
    | Except.ok world2 => generateLoop ops env rng fuel world2 [] []

end AomgDriver

namespace AomgStore

theorem matLookup_update_self (mat : List (History × AttrMap)) (h : History) (D : AttrMap) :
    matLookup (matUpdate mat h D) h = some D := by
  induction mat with
  | nil => simp [matUpdate, matLookup]
  | cons p rest ih =>
    obtain ⟨hk, d0⟩ := p
    by_cases he : hk = h
    · simp [matUpdate, he, matLookup]
    · simp [matUpdate, he, matLookup, ih]

theorem matLookup_update_ne (mat : List (History × AttrMap)) (key h' : History)
    (D : AttrMap) (hne : h' ≠ key) :
    matLookup (matUpdate mat key D) h' = matLookup mat h' := by
  induction mat with
  | nil =>
    simp only [matUpdate, matLookup]
    rw [if_neg (show ¬ key = h' from fun he => hne he.symm)]
  | cons p rest ih =>
    obtain ⟨hk, d0⟩ := p
    by_cases he : hk = key
    · subst he
      have : hk ≠ h' := fun hx => hne (hx.symm)
      simp [matUpdate, matLookup, this]
    · simp [matUpdate, he, matLookup, ih]

theorem lookup_set_self (d : AttrMap) (k : String) (v : Nat) :
    lookupMap (setMap d k v) k = some v := by
  induction d with
  | nil => simp [setMap, lookupMap]
  | cons p rest ih =>
    obtain ⟨k0, v0⟩ := p
    by_cases he : k0 = k
    · simp [setMap, he, lookupMap]
    · simp [setMap, he, lookupMap, ih]

theorem lookup_set_ne (d : AttrMap) (k k' : String) (v : Nat) (hne : k' ≠ k) :
    lookupMap (setMap d k v) k' = lookupMap d k' := by
  induction d with
  | nil =>
    simp only [setMap, lookupMap]
    rw [if_neg (show ¬ k = k' from fun he => hne he.symm)]
  | cons p rest ih =>
    obtain ⟨k0, v0⟩ := p
    by_cases he : k0 = k
    · subst he
      have : k0 ≠ k' := fun hx => hne hx.symm
      simp [setMap, lookupMap, this]
    · simp [setMap, he, lookupMap, ih]

theorem matLookup_append_fresh (mat : List (History × AttrMap)) (n x : Nat) (t : History)
    (hfr : ∀ p ∈ mat, ∀ u ∈ p.1, u < n) (hx : n ≤ x) :
    matLookup mat (t ++ [x]) = none := by
  induction mat with
  | nil => rfl
  | cons p rest ih =>
    obtain ⟨hk, d⟩ := p
    have hne : hk ≠ t ++ [x] := by
      intro he
      have hmem : x ∈ hk := by rw [he]; simp
      have := hfr (hk, d) (List.mem_cons_self _ _) x hmem
      omega
    simp only [matLookup]
    rw [if_neg hne]
    exact ih (fun p hp => hfr p (List.mem_cons_of_mem _ hp))

theorem matLookup_nil_none (mat : List (History × AttrMap))
    (hne : ∀ p ∈ mat, p.1 ≠ ([] : History)) : matLookup mat [] = none := by
  induction mat with
  | nil => rfl
  | cons p rest ih =>
    obtain ⟨hk, d⟩ := p
    simp only [matLookup]
    rw [if_neg (hne (hk, d) (List.mem_cons_self _ _))]
    exact ih (fun p hp => hne p (List.mem_cons_of_mem _ hp))

theorem findBase_update_short (mat : List (History × AttrMap)) (key : History) (D : AttrMap) :
    ∀ (f : Nat) (a : History), a.length < key.length →
    findBase (matUpdate mat key D) f a = findBase mat f a := by
  intro f
  induction f with
  | zero => intro a _; rfl
  | succ f ih =>
    intro a ha
    match a with
    | [] => rfl
    | x :: xs =>
      have hne : (x :: xs) ≠ key := by
        intro he
        rw [he] at ha
        omega
      simp only [findBase]
      rw [matLookup_update_ne mat key (x :: xs) D hne]
      cases hml : matLookup mat (x :: xs) with
      | some d => rfl
      | none =>
        refine ih (x :: xs).dropLast ?_
        have := List.length_dropLast (x :: xs)
        omega

theorem findBase_succ_effDict (mat : List (History × AttrMap)) (h : History)
    (hnil : matLookup mat [] = none) :
    findBase mat (h.length + 1) h = effDict mat h := by
  match h with
  | [] =>
    simp only [effDict, hnil, ensure_base_dict]
    rfl
  | x :: xs => rfl

theorem effDict_append_fresh (mat : List (History × AttrMap)) (t : History) (x : Nat)
    (hml : matLookup mat (t ++ [x]) = none) (hnil : matLookup mat [] = none) :
    effDict mat (t ++ [x]) = effDict mat t := by
  calc effDict mat (t ++ [x])
      = findBase mat (t.length + 1) t := by
        simp only [effDict, hml, ensure_base_dict, List.dropLast_concat]
        congr 1
        simp
    _ = effDict mat t := findBase_succ_effDict mat t hnil

theorem effDict_update_self (mat : List (History × AttrMap)) (key : History) (D : AttrMap) :
    effDict (matUpdate mat key D) key = some D := by
  simp only [effDict, matLookup_update_self]

theorem effDict_fork_write (mat : List (History × AttrMap)) (h : History) (x y : Nat)
    (D : AttrMap) (hne : h ++ [x] ≠ h ++ [y])
    (hmlB : matLookup mat (h ++ [x]) = none)
    (hnil : matLookup mat [] = none) :
    effDict (matUpdate mat (h ++ [y]) D) (h ++ [x]) = effDict mat h := by
  calc effDict (matUpdate mat (h ++ [y]) D) (h ++ [x])
      = findBase (matUpdate mat (h ++ [y]) D) (h.length + 1) h := by
        have h1 : matLookup (matUpdate mat (h ++ [y]) D) (h ++ [x]) = none := by
          rw [matLookup_update_ne _ _ _ _ hne]
          exact hmlB
        simp only [effDict, h1, ensure_base_dict, List.dropLast_concat]
        congr 1
        simp
    _ = findBase mat (h.length + 1) h := by
        refine findBase_update_short _ _ _ _ _ ?_
        simp
    _ = effDict mat h := findBase_succ_effDict mat h hnil

/-- C1: fork isolation of the branching object store.  Part one:
`getattr` after `setattr` returns the stored value.  Part two: forking an
object `o` at history `h` yields the relocated live object at
`(fork s h).2.1` and the forked copy at `(fork s h).2.2`; an attribute
written only on the copy is not visible on the original, one written only
on the original is not visible on the copy, and an attribute set before
the fork keeps its pre-fork value on both. -/
theorem C1_fork_isolation :
    (∀ (s : UState) (h : History) (k : String) (v : Nat) (s' : UState),
      setattr s h k v = some s' → getattr s' h k = some v) ∧
    (∀ (s : UState) (h : History) (k k2 k3 : String) (v v2 v3 : Nat), WF s →
      k2 ≠ k → k3 ≠ k → k2 ≠ k3 →
      getattr s h k = some v → getattr s h k2 = none → getattr s h k3 = none →
      ∃ s2 s3,
        setattr (fork s h).1 (fork s h).2.2 k2 v2 = some s2 ∧
        setattr s2 (fork s h).2.1 k3 v3 = some s3 ∧
        getattr s3 (fork s h).2.1 k = some v ∧
        getattr s3 (fork s h).2.2 k = some v ∧
        getattr s3 (fork s h).2.2 k2 = some v2 ∧
        getattr s3 (fork s h).2.1 k3 = some v3 ∧
        getattr s3 (fork s h).2.1 k2 = none ∧
        getattr s3 (fork s h).2.2 k3 = none) := by
  constructor
  · intro s h k v s' hset
    rw [setattr] at hset
    cases heff : effDict s.mat h with
    | none =>
      simp only [heff] at hset
      exact Option.noConfusion hset
    | some d =>
      simp only [heff, Option.some.injEq] at hset
      subst hset
      simp only [getattr, effDict_update_self]
      exact lookup_set_self d k v
  · intro s h k k2 k3 v v2 v3 hWF hk2 hk3 hk23 hv h2 h3
    have hnil : matLookup s.mat [] = none :=
      matLookup_nil_none _ (fun p hp => (hWF.1 p hp).1)
    have hfrB : matLookup s.mat (h ++ [s.fresh]) = none :=
      matLookup_append_fresh s.mat s.fresh s.fresh h
        (fun p hp => (hWF.1 p hp).2) le_rfl
    have hfrC : matLookup s.mat (h ++ [s.fresh + 1]) = none :=
      matLookup_append_fresh s.mat s.fresh (s.fresh + 1) h
        (fun p hp => (hWF.1 p hp).2) (by omega)
    have hBC : h ++ [s.fresh] ≠ h ++ [s.fresh + 1] := by simp
    have hCB : h ++ [s.fresh + 1] ≠ h ++ [s.fresh] := by simp
    rw [getattr] at hv h2 h3
    cases heff : effDict s.mat h with
    | none =>
      simp only [heff] at hv
      exact Option.noConfusion hv
    | some dB =>
      simp only [heff] at hv h2 h3
      have heffC : effDict s.mat (h ++ [s.fresh + 1]) = some dB := by
        rw [effDict_append_fresh s.mat h (s.fresh + 1) hfrC hnil, heff]
      have heffB2 : effDict (matUpdate s.mat (h ++ [s.fresh + 1]) (setMap dB k2 v2))
          (h ++ [s.fresh]) = some dB := by
        rw [effDict_fork_write s.mat h s.fresh (s.fresh + 1) _ hBC hfrB hnil, heff]
      have hml : effDict (matUpdate (matUpdate s.mat (h ++ [s.fresh + 1])
          (setMap dB k2 v2)) (h ++ [s.fresh]) (setMap dB k3 v3))
          (h ++ [s.fresh + 1]) = some (setMap dB k2 v2) := by
        simp only [effDict]
        rw [matLookup_update_ne _ _ _ _ hCB, matLookup_update_self]
      refine ⟨⟨matUpdate s.mat (h ++ [s.fresh + 1]) (setMap dB k2 v2),
        (s.live.map (fun h0 => h0 ++ [s.fresh])) ++ [h ++ [s.fresh + 1]], s.fresh + 2⟩,
        ⟨matUpdate (matUpdate s.mat (h ++ [s.fresh + 1]) (setMap dB k2 v2))
          (h ++ [s.fresh]) (setMap dB k3 v3),
        (s.live.map (fun h0 => h0 ++ [s.fresh])) ++ [h ++ [s.fresh + 1]], s.fresh + 2⟩,
        ?_, ?_, ?_, ?_, ?_, ?_, ?_, ?_⟩
      · simp only [setattr, fork, heffC]
      · simp only [setattr, fork, heffB2]
      · simp only [getattr, fork, effDict_update_self]
        rw [lookup_set_ne _ _ _ _ (fun he => hk3 he.symm)]
        exact hv
      · simp only [getattr, fork, hml]
        rw [lookup_set_ne _ _ _ _ (fun he => hk2 he.symm)]
        exact hv
      · simp only [getattr, fork, hml]
        exact lookup_set_self dB k2 v2
      · simp only [getattr, fork, effDict_update_self]
        exact lookup_set_self dB k3 v3
      · simp only [getattr, fork, effDict_update_self]
        rw [lookup_set_ne _ _ _ _ hk23]
        exact h2
      · simp only [getattr, fork, hml]
        rw [lookup_set_ne _ _ _ _ (fun he => hk23 he.symm)]
        exact h3

/-- C1 witness: the theorem applied to the spec's literal scenario
(`obj.sdf = 2`; fork; `obj2.jkl = 3`; `obj.qwe = 4`). -/
theorem C1_fork_isolation_witness :
    (∃ s2 s3,
      setattr (fork storeEx [0]).1 (fork storeEx [0]).2.2 "jkl" 3 = some s2 ∧
      setattr s2 (fork storeEx [0]).2.1 "qwe" 4 = some s3 ∧
      getattr s3 (fork storeEx [0]).2.1 "sdf" = some 2 ∧
      getattr s3 (fork storeEx [0]).2.2 "sdf" = some 2 ∧
      getattr s3 (fork storeEx [0]).2.2 "jkl" = some 3 ∧
      getattr s3 (fork storeEx [0]).2.1 "qwe" = some 4 ∧
      getattr s3 (fork storeEx [0]).2.1 "jkl" = none ∧
      getattr s3 (fork storeEx [0]).2.2 "qwe" = none) ∧
    (∀ s', setattr storeEx [0] "zxc" 5 = some s' → getattr s' [0] "zxc" = some 5) :=
  ⟨C1_fork_isolation.2 storeEx [0] "sdf" "jkl" "qwe" 2 3 4
    (by unfold WF; decide)
    (by decide) (by decide) (by decide) (by decide) (by decide) (by decide),
   fun s' => C1_fork_isolation.1 storeEx [0] "zxc" 5 s'⟩

end AomgStore

namespace AomgCond

/-- C8: `AtLeast` constructor normalization: a count at most 0 gives the
`TrueCondition` singleton; a count exceeding the number of flattened
conditions gives `FalseCondition`; `AtLeast(1, [x])` is `x` itself and raw
vertices are wrapped in `VertexCondition`; in particular `AtLeast(0, [])`
is true and `AtLeast(1, [])` is false. -/
theorem C8_AtLeast_normalization :
    (∀ (count : Int) (conditions : CondInput), count ≤ 0 →
      AtLeast count conditions = Cond.TrueCondition) ∧
    (∀ (count : Int) (conditions : CondInput), 0 < count →
      ((flatten_and_append_conditions conditions []).length : Int) < count →
      AtLeast count conditions = Cond.FalseCondition) ∧
    (∀ c : Cond, AtLeast 1 (CondInput.listI [CondInput.cond c]) = c) ∧
    (∀ v : Nat, AtLeast 1 (CondInput.listI [CondInput.vertex v]) =
      Cond.VertexCondition v) ∧
    AtLeast 0 (CondInput.listI []) = Cond.TrueCondition ∧
    AtLeast 1 (CondInput.listI []) = Cond.FalseCondition := by
  refine ⟨?_, ?_, fun c => rfl, fun v => rfl, rfl, rfl⟩
  · intro count conditions h
    rw [AtLeast, if_pos h]
  · intro count conditions h1 h2
    rw [AtLeast, if_neg (by omega)]
    exact if_pos h2

/-- C8 witness: the normalization theorem applied at concrete inputs. -/
theorem C8_AtLeast_normalization_witness :
    AtLeast (-2) (CondInput.listI [CondInput.vertex 3]) = Cond.TrueCondition ∧
    AtLeast 3 (CondInput.listI [CondInput.cond Cond.TrueCondition,
      CondInput.listI [CondInput.vertex 4]]) = Cond.FalseCondition ∧
    AtLeast 1 (CondInput.listI [CondInput.cond (Cond.VertexCondition 9)]) =
      Cond.VertexCondition 9 ∧
    AtLeast 1 (CondInput.listI [CondInput.vertex 7]) = Cond.VertexCondition 7 ∧
    AtLeast 0 (CondInput.listI []) = Cond.TrueCondition ∧
    AtLeast 1 (CondInput.listI []) = Cond.FalseCondition :=
  ⟨C8_AtLeast_normalization.1 (-2) _ (by decide),
   C8_AtLeast_normalization.2.1 3 _ (by decide) (by decide),
   C8_AtLeast_normalization.2.2.1 _,
   C8_AtLeast_normalization.2.2.2.1 7,
   C8_AtLeast_normalization.2.2.2.2.1,
   C8_AtLeast_normalization.2.2.2.2.2⟩

theorem cfuel_pos (c : Cond) : 1 ≤ cfuel c := by
  cases c <;> simp [cfuel]

theorem cfuel_le_cfuelList {c : Cond} {l : List Cond} (h : c ∈ l) :
    cfuel c ≤ cfuelList l := by
  induction l with
  | nil => cases h
  | cons a as ih =>
    rcases List.mem_cons.mp h with h' | h'
    · subst h'; simp [cfuelList, Nat.le_max_left]
    · calc cfuel c ≤ cfuelList as := ih h'
        _ ≤ cfuelList (a :: as) := by simp [cfuelList, Nat.le_max_right]

theorem stable_true (env : CondEnv) : ∀ g, 1 ≤ g →
    simplify env g Cond.TrueCondition = some Cond.TrueCondition := by
  intro g hg
  obtain ⟨g', rfl⟩ : ∃ g', g = g' + 1 := ⟨g - 1, by omega⟩
  rfl

theorem stable_false (env : CondEnv) : ∀ g, 1 ≤ g →
    simplify env g Cond.FalseCondition = some Cond.FalseCondition := by
  intro g hg
  obtain ⟨g', rfl⟩ : ∃ g', g = g' + 1 := ⟨g - 1, by omega⟩
  rfl

theorem stable_placeholder (env : CondEnv) (pn : String) (pb : Option Nat) :
    ∀ g, 1 ≤ g → simplify env g (Cond.PlaceholderCondition pn pb) =
      some (Cond.PlaceholderCondition pn pb) := by
  intro g hg
  obtain ⟨g', rfl⟩ : ∃ g', g = g' + 1 := ⟨g - 1, by omega⟩
  rfl

theorem stable_vertex (env : CondEnv) (v : Nat) (hk : env.vertexKnown v = false)
    (he : env.vertexEquiv v = none) :
    ∀ g, 1 ≤ g → simplify env g (Cond.VertexCondition v) =
      some (Cond.VertexCondition v) := by
  intro g hg
  obtain ⟨g', rfl⟩ : ∃ g', g = g' + 1 := ⟨g - 1, by omega⟩
  simp only [simplify, hk, he]
  rfl

theorem stable_enum (env : CondEnv) (e : Nat) (vals : List String)
    (hk : env.enumKnown e = false)
    (helim : vals.filter (fun v => decide (v ∈ env.enumImpossible e)) = []) :
    ∀ g, 1 ≤ g → simplify env g (Cond.EnumCondition e vals) =
      some (Cond.EnumCondition e vals) := by
  intro g hg
  obtain ⟨g', rfl⟩ : ∃ g', g = g' + 1 := ⟨g - 1, by omega⟩
  simp only [simplify, hk, helim]
  rfl

theorem stable_mpr (env : CondEnv) (p : Nat) (hk : env.portKnown p = false) :
    ∀ g, 1 ≤ g → simplify env g (Cond.MovementPortReachableCondition p) =
      some (Cond.MovementPortReachableCondition p) := by
  intro g hg
  obtain ⟨g', rfl⟩ : ∃ g', g = g' + 1 := ⟨g - 1, by omega⟩
  simp only [simplify, hk]
  rfl

theorem mapOpt_forall₂ {α β : Type} {f : α → Option β} :
    ∀ {as : List α} {bs : List β}, mapOpt f as = some bs →
    List.Forall₂ (fun a b => f a = some b) as bs := by
  intro as
  induction as with
  | nil => intro bs h; cases h; exact List.Forall₂.nil
  | cons a as ih =>
    intro bs h
    rw [mapOpt] at h
    cases hfa : f a with
    | none => rw [hfa] at h; exact absurd h (by simp)
    | some b =>
      cases hrest : mapOpt f as with
      | none => rw [hfa, hrest] at h; exact absurd h (by simp)
      | some bs' =>
        rw [hfa, hrest] at h
        cases h
        exact List.Forall₂.cons hfa (ih hrest)

theorem mapOpt_self {α : Type} {f : α → Option α} :
    ∀ {l : List α}, (∀ a ∈ l, f a = some a) → mapOpt f l = some l := by
  intro l
  induction l with
  | nil => intro _; rfl
  | cons a as ih =>
    intro h
    rw [mapOpt, h a (List.mem_cons_self a as), ih (fun x hx => h x (List.mem_cons_of_mem a hx))]

theorem forall₂_mem_right {α β : Type} {R : α → β → Prop} :
    ∀ {as : List α} {bs : List β}, List.Forall₂ R as bs → ∀ b ∈ bs, ∃ a ∈ as, R a b := by
  intro as bs h
  induction h with
  | nil => intro b hb; cases hb
  | cons hr _ ih =>
    intro b hb
    rcases List.mem_cons.mp hb with h' | h'
    · subst h'; exact ⟨_, List.mem_cons_self _ _, hr⟩
    · obtain ⟨a, ha, hra⟩ := ih b h'
      exact ⟨a, List.mem_cons_of_mem _ ha, hra⟩

theorem unchanged_spec {env : CondEnv} {f : Nat} :
    ∀ {cs rs : List Cond},
    List.Forall₂ (fun c r => simplify env f c = some r) cs rs →
    (cs.zip rs).any changedTest = false →
    rs = cs ∧ ∀ c ∈ cs, simplify env f c = some c ∧
      c ≠ Cond.TrueCondition ∧ c ≠ Cond.FalseCondition := by
  intro cs rs h
  induction h with
  | nil => intro _; exact ⟨rfl, fun c hc => absurd hc (List.not_mem_nil c)⟩
  | @cons a b as bs hr hrest ih =>
    intro hany
    rw [List.zip_cons_cons, List.any_cons, Bool.or_eq_false_iff] at hany
    obtain ⟨h1, h2⟩ := hany
    rw [changedTest, Bool.or_eq_false_iff, Bool.or_eq_false_iff] at h1
    obtain ⟨⟨hbT, hbF⟩, hba⟩ := h1
    have hba' : b = a := by
      by_contra hne
      rw [decide_eq_false_iff_not] at hba
      exact hba hne
    have hbT' : a ≠ Cond.TrueCondition := by
      rw [decide_eq_false_iff_not] at hbT; rw [hba'] at hbT; exact hbT
    have hbF' : a ≠ Cond.FalseCondition := by
      rw [decide_eq_false_iff_not] at hbF; rw [hba'] at hbF; exact hbF
    obtain ⟨hrs, hmem⟩ := ih h2
    subst hba'
    refine ⟨by rw [hrs], ?_⟩
    intro c hc
    rcases List.mem_cons.mp hc with h' | h'
    · subst h'; exact ⟨hr, hbT', hbF'⟩
    · exact hmem c h'

theorem zip_self_changed_false {l : List Cond}
    (h : ∀ c ∈ l, c ≠ Cond.TrueCondition ∧ c ≠ Cond.FalseCondition) :
    (l.zip l).any changedTest = false := by
  induction l with
  | nil => rfl
  | cons a as ih =>
    rw [List.zip_cons_cons, List.any_cons, Bool.or_eq_false_iff]
    obtain ⟨haT, haF⟩ := h a (List.mem_cons_self a as)
    constructor
    · rw [changedTest]
      simp [haT, haF]
    · exact ih (fun c hc => h c (List.mem_cons_of_mem a hc))

theorem flatten_condList_append :
    ∀ (l : List Cond) (acc : List Cond),
    flatten_and_append_list (l.map CondInput.cond) acc = acc ++ l := by
  intro l
  induction l with
  | nil => intro acc; simp [flatten_and_append_list]
  | cons a as ih =>
    intro acc
    rw [List.map_cons, flatten_and_append_list, flatten_and_append_conditions, ih]
    simp

theorem stable_AtLeastCondition {env : CondEnv} {cnt : Int} {l : List Cond}
    (h : ∀ k ∈ l, (∀ g, cfuel k ≤ g → simplify env g k = some k) ∧
      k ≠ Cond.TrueCondition ∧ k ≠ Cond.FalseCondition) :
    ∀ g, cfuel (Cond.AtLeastCondition cnt l) ≤ g →
    simplify env g (Cond.AtLeastCondition cnt l) = some (Cond.AtLeastCondition cnt l) := by
  intro g hg
  have hg1 : cfuelList l + 1 ≤ g := by rw [cfuel] at hg; exact hg
  obtain ⟨g', rfl⟩ : ∃ g', g = g' + 1 := ⟨g - 1, by omega⟩
  have hg' : cfuelList l ≤ g' := by omega
  have hmap : mapOpt (simplify env g') l = some l := by
    refine mapOpt_self ?_
    intro a ha
    exact (h a ha).1 g' (le_trans (cfuel_le_cfuelList ha) hg')
  have hch : (l.zip l).any changedTest = false :=
    zip_self_changed_false (fun c hc => (h c hc).2)
  simp only [simplify, hmap, hch]
  rfl

theorem flatten_condList (l : List Cond) :
    flatten_and_append_conditions (condList l) [] = l := by
  rw [condList, flatten_and_append_conditions, flatten_condList_append]
  simp

theorem stable_AtLeast_constructed {env : CondEnv} {cnt : Int} {l : List Cond}
    (h : ∀ k ∈ l, (∀ g, cfuel k ≤ g → simplify env g k = some k) ∧
      k ≠ Cond.TrueCondition ∧ k ≠ Cond.FalseCondition) :
    ∀ g, cfuel (AtLeast cnt (condList l)) ≤ g →
    simplify env g (AtLeast cnt (condList l)) = some (AtLeast cnt (condList l)) := by
  by_cases h0 : cnt ≤ 0
  · rw [AtLeast, if_pos h0]
    exact fun g hg => stable_true env g (le_trans (cfuel_pos _) hg)
  · rw [AtLeast, if_neg h0, flatten_condList]
    by_cases hlen : ((l.length : Nat) : Int) < cnt
    · rw [if_pos hlen]
      exact fun g hg => stable_false env g (le_trans (cfuel_pos _) hg)
    · rw [if_neg hlen]
      match l, h, hlen with
      | [], h, hlen =>
        exfalso
        apply hlen
        simp
        omega
      | [c], h, hlen =>
        by_cases hc1 : cnt = 1
        · subst hc1
          exact (h c (List.mem_cons_self c [])).1
        · change ∀ g, cfuel (if cnt = 1 then c else Cond.AtLeastCondition cnt [c]) ≤ g →
            simplify env g (if cnt = 1 then c else Cond.AtLeastCondition cnt [c]) =
            some (if cnt = 1 then c else Cond.AtLeastCondition cnt [c])
          rw [if_neg hc1]
          exact stable_AtLeastCondition h
      | c1 :: c2 :: cs, h, hlen => exact stable_AtLeastCondition h

/-- C9: `simplify` is idempotent.  Whenever a first `simplify` of a
condition `c` terminates with result `d` (the fuel counts the depth of the
Python recursion; `none` models divergence on an `equivalent_to` cycle),
re-simplifying `d` with any fuel at least `cfuel d` returns `d` unchanged,
over the same unmutated vertex / enum-choice / port state `env`. -/
theorem C9_simplify_idempotent (env : CondEnv) :
    ∀ (f : Nat) (c d : Cond), simplify env f c = some d →
    ∀ g, cfuel d ≤ g → simplify env g d = some d := by
  intro f
  induction f with
  | zero =>
    intro c d h
    exact absurd h (by rw [simplify]; simp)
  | succ f ih =>
    intro c d h
    match c with
    | Cond.TrueCondition =>
      cases h
      exact fun g hg => stable_true env g (le_trans (cfuel_pos _) hg)
    | Cond.FalseCondition =>
      cases h
      exact fun g hg => stable_false env g (le_trans (cfuel_pos _) hg)
    | Cond.PlaceholderCondition pn pb =>
      cases h
      exact fun g hg => stable_placeholder env pn pb g (le_trans (cfuel_pos _) hg)
    | Cond.VertexCondition v =>
      simp only [simplify] at h
      by_cases hk : env.vertexKnown v
      · rw [if_pos hk] at h
        by_cases ha : env.vertexAccess v
        · rw [if_pos ha] at h
          cases h
          exact fun g hg => stable_true env g (le_trans (cfuel_pos _) hg)
        · rw [if_neg ha] at h
          cases h
          exact fun g hg => stable_false env g (le_trans (cfuel_pos _) hg)
      · rw [if_neg hk] at h
        cases hev : env.vertexEquiv v with
        | some w =>
          rw [hev] at h
          exact ih _ _ h
        | none =>
          rw [hev] at h
          cases h
          exact fun g hg =>
            stable_vertex env v (by simpa using hk) hev g (le_trans (cfuel_pos _) hg)
    | Cond.EnumCondition e vals =>
      simp only [simplify] at h
      by_cases hk : env.enumKnown e
      · rw [if_pos hk] at h
        by_cases hv : env.enumValue e ∈ vals
        · rw [if_pos hv] at h
          cases h
          exact fun g hg => stable_true env g (le_trans (cfuel_pos _) hg)
        · rw [if_neg hv] at h
          cases h
          exact fun g hg => stable_false env g (le_trans (cfuel_pos _) hg)
      · rw [if_neg hk] at h
        by_cases helim : vals.filter (fun v => decide (v ∈ env.enumImpossible e)) = []
        · rw [if_pos helim] at h
          cases h
          exact fun g hg =>
            stable_enum env e vals (by simpa using hk) helim g (le_trans (cfuel_pos _) hg)
        · rw [if_neg helim] at h
          by_cases hnew : vals.filter (fun v => decide (¬ v ∈
              vals.filter (fun v => decide (v ∈ env.enumImpossible e)))) = []
          · rw [if_pos hnew] at h
            cases h
            exact fun g hg => stable_false env g (le_trans (cfuel_pos _) hg)
          · rw [if_neg hnew] at h
            cases h
            have hsub : (vals.filter (fun v => decide (¬ v ∈
                vals.filter (fun v => decide (v ∈ env.enumImpossible e))))).filter
                (fun v => decide (v ∈ env.enumImpossible e)) = [] := by
              refine List.filter_eq_nil_iff.mpr ?_
              intro a ha
              rw [List.mem_filter] at ha
              obtain ⟨hav, hane⟩ := ha
              rw [decide_eq_true_eq] at hane
              rw [decide_eq_true_eq]
              intro himp
              exact hane (List.mem_filter.mpr ⟨hav, by rw [decide_eq_true_eq]; exact himp⟩)
            exact fun g hg =>
              stable_enum env e _ (by simpa using hk) hsub g (le_trans (cfuel_pos _) hg)
    | Cond.AtLeastCondition cnt cs =>
      simp only [simplify] at h
      cases hmap : mapOpt (simplify env f) cs with
      | none =>
        simp only [hmap] at h
        exact absurd h (by simp)
      | some rs =>
        simp only [hmap] at h
        have hf2 := mapOpt_forall₂ hmap
        by_cases hch : (cs.zip rs).any changedTest = true
        · rw [if_pos hch] at h
          cases h
          have hkept : ∀ k ∈ rs.filter (fun s => decide (s ≠ Cond.TrueCondition ∧
              s ≠ Cond.FalseCondition)),
              (∀ g, cfuel k ≤ g → simplify env g k = some k) ∧
              k ≠ Cond.TrueCondition ∧ k ≠ Cond.FalseCondition := by
            intro k hk
            rw [List.mem_filter] at hk
            obtain ⟨hkrs, hkp⟩ := hk
            rw [decide_eq_true_eq] at hkp
            obtain ⟨a, _, ha⟩ := forall₂_mem_right hf2 k hkrs
            exact ⟨ih _ _ ha, hkp⟩
          exact stable_AtLeast_constructed hkept
        · rw [Bool.not_eq_true] at hch
          rw [if_neg (by rw [hch]; simp)] at h
          cases h
          have hun := unchanged_spec hf2 hch
          refine stable_AtLeastCondition ?_
          intro k hk
          exact ⟨ih _ _ (hun.2 k hk).1, (hun.2 k hk).2⟩
    | Cond.MovementPortReachableCondition p =>
      simp only [simplify] at h
      by_cases hk : env.portKnown p
      · rw [if_pos hk] at h
        exact ih _ _ h
      · rw [if_neg hk] at h
        cases h
        exact fun g hg => stable_mpr env p (by simpa using hk) g (le_trans (cfuel_pos _) hg)

/-- C9 witness: simplifying a concrete condition once yields a placeholder,
and the idempotence theorem applied there shows the second `simplify`
returns it unchanged. -/
theorem C9_simplify_idempotent_witness :
    simplify envW 3 cW = some (Cond.PlaceholderCondition "x" none) ∧
    simplify envW 1 (Cond.PlaceholderCondition "x" none) =
      some (Cond.PlaceholderCondition "x" none) :=
  ⟨by decide,
   C9_simplify_idempotent envW 3 cW (Cond.PlaceholderCondition "x" none)
     (by decide) 1 (by decide)⟩

end AomgCond

namespace AomgPorts

theorem dictFind_set_self (d : List (PId × Int)) (k : PId) (v : Int) :
    dictFind (dictSet d k v) k = some v := by
  induction d with
  | nil => simp [dictSet, dictFind]
  | cons p rest ih =>
    obtain ⟨k0, v0⟩ := p
    by_cases he : k0 = k
    · simp [dictSet, he, dictFind]
    · simp [dictSet, he, dictFind, ih]

theorem dictFind_set_ne (d : List (PId × Int)) (k k' : PId) (v : Int) (hne : k' ≠ k) :
    dictFind (dictSet d k v) k' = dictFind d k' := by
  induction d with
  | nil =>
    simp only [dictSet, dictFind]
    rw [if_neg (show ¬ k = k' from fun he => hne he.symm)]
  | cons p rest ih =>
    obtain ⟨k0, v0⟩ := p
    by_cases he : k0 = k
    · subst he
      have : k0 ≠ k' := fun hx => hne hx.symm
      simp [dictSet, dictFind, this]
    · simp [dictSet, he, dictFind, ih]

theorem dictMem_false_iff (d : List (PId × Int)) (k : PId) :
    dictMem d k = false ↔ dictFind d k = none := by
  induction d with
  | nil => simp [dictMem, dictFind]
  | cons p rest ih =>
    obtain ⟨k0, v0⟩ := p
    by_cases he : k0 = k
    · simp [dictMem, dictFind, he]
    · simp [dictMem, dictFind, he, ih]

theorem dictDel_absent (d : List (PId × Int)) (k : PId) (h : dictFind d k = none) :
    dictDel d k = Except.error PyError.attributeError := by
  induction d with
  | nil => rfl
  | cons p rest ih =>
    obtain ⟨k0, v0⟩ := p
    simp only [dictFind] at h
    by_cases he : k0 = k
    · rw [if_pos he] at h
      exact Option.noConfusion h
    · rw [if_neg he] at h
      simp only [dictDel]
      rw [if_neg he, ih h]

theorem dictDel_ok_find_ne (d d' : List (PId × Int)) (k k' : PId)
    (h : dictDel d k = Except.ok d') (hne : k' ≠ k) :
    dictFind d' k' = dictFind d k' := by
  induction d generalizing d' with
  | nil => exact Except.noConfusion h
  | cons p rest ih =>
    obtain ⟨k0, v0⟩ := p
    simp only [dictDel] at h
    by_cases he : k0 = k
    · rw [if_pos he] at h
      cases h
      subst he
      simp only [dictFind]
      rw [if_neg (show ¬ k0 = k' from fun hx => hne hx.symm)]
    · rw [if_neg he] at h
      cases hrest : dictDel rest k with
      | error e => rw [hrest] at h; exact Except.noConfusion h
      | ok l =>
        rw [hrest] at h
        cases h
        simp only [dictFind]
        by_cases hk0 : k0 = k'
        · rw [if_pos hk0, if_pos hk0]
        · rw [if_neg hk0, if_neg hk0]
          exact ih l hrest

theorem dictMem_true_key (d : List (PId × Int)) (k : PId) (h : dictMem d k = true) :
    k ∈ d.map Prod.fst := by
  induction d with
  | nil => exact Bool.noConfusion h
  | cons p rest ih =>
    obtain ⟨k0, v0⟩ := p
    simp only [dictMem] at h
    by_cases he : k0 = k
    · subst he; simp
    · rw [if_neg he] at h
      simp only [List.map_cons, List.mem_cons]
      exact Or.inr (ih h)

theorem dictDel_ok_find_self (d d' : List (PId × Int)) (k : PId)
    (hnd : (d.map Prod.fst).Nodup) (h : dictDel d k = Except.ok d') :
    dictFind d' k = none := by
  induction d generalizing d' with
  | nil => exact Except.noConfusion h
  | cons p rest ih =>
    obtain ⟨k0, v0⟩ := p
    simp only [List.map_cons, List.nodup_cons] at hnd
    simp only [dictDel] at h
    by_cases he : k0 = k
    · rw [if_pos he] at h
      cases h
      rw [← dictMem_false_iff]
      cases hm : dictMem rest k with
      | false => rfl
      | true => exact absurd (dictMem_true_key rest k hm) (he ▸ hnd.1)
    · rw [if_neg he] at h
      cases hrest : dictDel rest k with
      | error e => rw [hrest] at h; exact Except.noConfusion h
      | ok l =>
        rw [hrest] at h
        cases h
        simp only [dictFind]
        rw [if_neg he]
        exact ih l hnd.2 hrest

theorem dictDel_ok_length (d d' : List (PId × Int)) (k : PId)
    (h : dictDel d k = Except.ok d') : d.length = d'.length + 1 := by
  induction d generalizing d' with
  | nil => exact Except.noConfusion h
  | cons p rest ih =>
    obtain ⟨k0, v0⟩ := p
    simp only [dictDel] at h
    by_cases he : k0 = k
    · rw [if_pos he] at h
      cases h
      rfl
    · rw [if_neg he] at h
      cases hrest : dictDel rest k with
      | error e => rw [hrest] at h; exact Except.noConfusion h
      | ok l =>
        rw [hrest] at h
        cases h
        simp [ih l hrest]

theorem dictDel_ok_sum (d d' : List (PId × Int)) (k : PId)
    (h : dictDel d k = Except.ok d') :
    sumValues d' = sumValues d - dictGet d k 0 := by
  induction d generalizing d' with
  | nil => exact Except.noConfusion h
  | cons p rest ih =>
    obtain ⟨k0, v0⟩ := p
    simp only [dictDel] at h
    by_cases he : k0 = k
    · rw [if_pos he] at h
      cases h
      simp only [sumValues, dictGet, if_pos he]
      omega
    · rw [if_neg he] at h
      cases hrest : dictDel rest k with
      | error e => rw [hrest] at h; exact Except.noConfusion h
      | ok l =>
        rw [hrest] at h
        cases h
        simp only [sumValues, dictGet, if_neg he, ih l hrest]
        omega

theorem dictDel_ok_mem (d d' : List (PId × Int)) (k : PId)
    (h : dictDel d k = Except.ok d') : ∀ pr ∈ d', pr ∈ d := by
  induction d generalizing d' with
  | nil => exact Except.noConfusion h
  | cons p rest ih =>
    obtain ⟨k0, v0⟩ := p
    simp only [dictDel] at h
    by_cases he : k0 = k
    · rw [if_pos he] at h
      cases h
      exact fun pr hpr => List.mem_cons_of_mem _ hpr
    · rw [if_neg he] at h
      cases hrest : dictDel rest k with
      | error e => rw [hrest] at h; exact Except.noConfusion h
      | ok l =>
        rw [hrest] at h
        cases h
        intro pr hpr
        rcases List.mem_cons.mp hpr with h' | h'
        · exact h' ▸ List.mem_cons_self _ _
        · exact List.mem_cons_of_mem _ (ih l hrest pr h')

theorem dictDel_ok_keys (d d' : List (PId × Int)) (k : PId)
    (hnd : (d.map Prod.fst).Nodup) (h : dictDel d k = Except.ok d') :
    (d'.map Prod.fst).Nodup := by
  induction d generalizing d' with
  | nil => exact Except.noConfusion h
  | cons p rest ih =>
    obtain ⟨k0, v0⟩ := p
    simp only [List.map_cons, List.nodup_cons] at hnd
    simp only [dictDel] at h
    by_cases he : k0 = k
    · rw [if_pos he] at h
      cases h
      exact hnd.2
    · rw [if_neg he] at h
      cases hrest : dictDel rest k with
      | error e => rw [hrest] at h; exact Except.noConfusion h
      | ok l =>
        rw [hrest] at h
        cases h
        simp only [List.map_cons, List.nodup_cons]
        refine ⟨?_, ih l hnd.2 hrest⟩
        intro hmem
        apply hnd.1
        obtain ⟨pr, hpr, hfst⟩ := List.mem_map.mp hmem
        exact List.mem_map.mpr ⟨pr, dictDel_ok_mem rest l k hrest pr hpr, hfst⟩

theorem dictDel_ok_mem_true (d d' : List (PId × Int)) (k : PId)
    (h : dictDel d k = Except.ok d') : dictMem d k = true := by
  cases hm : dictMem d k with
  | true => rfl
  | false =>
    rw [dictDel_absent d k ((dictMem_false_iff d k).mp hm)] at h
    exact Except.noConfusion h

theorem dictSet_length (d : List (PId × Int)) (k : PId) (v : Int) :
    ((dictSet d k v).length : Int) =
      (d.length : Int) - (if dictMem d k then 1 else 0) + 1 := by
  induction d with
  | nil => simp [dictSet, dictMem]
  | cons p rest ih =>
    obtain ⟨k0, v0⟩ := p
    by_cases he : k0 = k
    · simp [dictSet, dictMem, he]
    · simp only [dictSet, dictMem, if_neg he, List.length_cons]
      push_cast
      push_cast at ih
      omega

theorem dictSet_sum (d : List (PId × Int)) (k : PId) (v : Int) :
    sumValues (dictSet d k v) = sumValues d - dictGet d k 0 + v := by
  induction d with
  | nil => simp [dictSet, sumValues, dictGet]
  | cons p rest ih =>
    obtain ⟨k0, v0⟩ := p
    by_cases he : k0 = k
    · simp only [dictSet, if_pos he, sumValues, dictGet]
      omega
    · simp only [dictSet, if_neg he, sumValues, dictGet, ih]
      omega

theorem dictSet_mem (d : List (PId × Int)) (k : PId) (v : Int) :
    ∀ pr ∈ dictSet d k v, pr = (k, v) ∨ pr ∈ d := by
  induction d with
  | nil => simp [dictSet]
  | cons p rest ih =>
    obtain ⟨k0, v0⟩ := p
    by_cases he : k0 = k
    · subst he
      intro pr hpr
      rw [dictSet, if_pos rfl] at hpr
      rcases List.mem_cons.mp hpr with h' | h'
      · exact Or.inl h'
      · exact Or.inr (List.mem_cons_of_mem _ h')
    · intro pr hpr
      rcases List.mem_cons.mp (by simpa [dictSet, if_neg he] using hpr) with h' | h'
      · exact Or.inr (h' ▸ List.mem_cons_self _ _)
      · rcases ih pr h' with h'' | h''
        · exact Or.inl h''
        · exact Or.inr (List.mem_cons_of_mem _ h'')

theorem dictSet_keys_sub (d : List (PId × Int)) (k : PId) (v : Int) :
    ∀ x ∈ (dictSet d k v).map Prod.fst, x = k ∨ x ∈ d.map Prod.fst := by
  intro x hx
  obtain ⟨pr, hpr, hfst⟩ := List.mem_map.mp hx
  rcases dictSet_mem d k v pr hpr with h' | h'
  · left; rw [← hfst, h']
  · right; exact List.mem_map.mpr ⟨pr, h', hfst⟩

theorem dictSet_keys_nodup (d : List (PId × Int)) (k : PId) (v : Int)
    (hnd : (d.map Prod.fst).Nodup) : ((dictSet d k v).map Prod.fst).Nodup := by
  induction d with
  | nil => simp [dictSet]
  | cons p rest ih =>
    obtain ⟨k0, v0⟩ := p
    simp only [List.map_cons, List.nodup_cons] at hnd
    by_cases he : k0 = k
    · subst he
      rw [dictSet, if_pos rfl]
      simp only [List.map_cons, List.nodup_cons]
      exact hnd
    · simp only [dictSet, if_neg he, List.map_cons, List.nodup_cons]
      refine ⟨?_, ih hnd.2⟩
      intro hmem
      rcases dictSet_keys_sub rest k v k0 hmem with h' | h'
      · exact he h'
      · exact hnd.1 h'

theorem dictSet_set_same (d : List (PId × Int)) (k : PId) (v : Int) :
    dictSet (dictSet d k v) k v = dictSet d k v := by
  induction d with
  | nil => simp [dictSet]
  | cons p rest ih =>
    obtain ⟨k0, v0⟩ := p
    by_cases he : k0 = k
    · simp [dictSet, he]
    · simp [dictSet, he, ih]

theorem dictGet_find_none (d : List (PId × Int)) (k : PId) (dft : Int)
    (h : dictFind d k = none) : dictGet d k dft = dft := by
  induction d with
  | nil => rfl
  | cons p rest ih =>
    obtain ⟨k0, v0⟩ := p
    simp only [dictFind] at h
    by_cases he : k0 = k
    · rw [if_pos he] at h
      exact Option.noConfusion h
    · rw [if_neg he] at h
      simp only [dictGet, if_neg he]
      exact ih h

theorem setConns_cc_self (w : PWorld) (p : PId) (d : List (PId × Int)) :
    ((setConns w p d).ports p).chosen_connections = d := by
  simp [setConns]

theorem setConns_cc_ne (w : PWorld) (p : PId) (d : List (PId × Int)) (x : PId)
    (h : x ≠ p) : ((setConns w p d).ports x).chosen_connections =
      (w.ports x).chosen_connections := by
  simp [setConns, h]

theorem setConns_maxc (w : PWorld) (p : PId) (d : List (PId × Int)) (x : PId) :
    ((setConns w p d).ports x).maximum_connections = (w.ports x).maximum_connections := by
  by_cases hx : x = p
  · subst hx; simp [setConns]
  · simp [setConns, hx]

theorem setConns_maxu (w : PWorld) (p : PId) (d : List (PId × Int)) (x : PId) :
    ((setConns w p d).ports x).maximum_unique_connections =
      (w.ports x).maximum_unique_connections := by
  by_cases hx : x = p
  · subst hx; simp [setConns]
  · simp [setConns, hx]

theorem uniq_violation_bound (w : PWorld) (p q : PId) (count mu : Int)
    (h : uniq_violation w p q count = false)
    (hmu : (w.ports p).maximum_unique_connections = some mu) :
    uniqProjected w p q count ≤ mu := by
  rw [uniq_violation, hmu] at h
  simp only [decide_eq_false_iff_not, not_lt, gt_iff_lt] at h
  exact h

theorem conn_violation_bound (w : PWorld) (p q : PId) (count m : Int)
    (h : conn_violation w p q count = false)
    (hmu : (w.ports p).maximum_connections = some m) :
    connProjected w p q count ≤ m := by
  rw [conn_violation, hmu] at h
  simp only [decide_eq_false_iff_not, not_lt, gt_iff_lt] at h
  exact h

theorem test_connect_one_spec (w : PWorld) (p q : PId) (count : Int)
    (h : test_connect_one w p q count = Except.ok ()) :
    0 ≤ count ∧ (w.ports p).known = false ∧ w.compat p q = true ∧
    uniq_violation w p q count = false ∧ conn_violation w p q count = false ∧
    q ∉ (w.ports p).impossible_connections := by
  rw [test_connect_one] at h
  split_ifs at h with h1 h2 h3 h4 h5 h6
  exact ⟨by omega, by simpa using h2, by simpa using h3,
    by simpa using h4, by simpa using h5, h6⟩

theorem test_connect_ok (w : PWorld) (p q : PId) (count : Int)
    (h : test_connect w p q count true = Except.ok ()) :
    test_connect_one w p q count = Except.ok () ∧
    test_connect_one w q p count = Except.ok () := by
  rw [test_connect] at h
  cases h1 : test_connect_one w p q count with
  | error e =>
    simp only [h1] at h
    exact absurd h (by simp)
  | ok u =>
    simp only [h1, if_true] at h
    exact ⟨rfl, h⟩

/-- `connect` preserves the port connection invariant. -/
theorem connect_ok_inv (w : PWorld) (p q : PId) (c : Int) (w' : PWorld)
    (hInv : Inv w) (h : connect w p q c = Except.ok w') : Inv w' := by
  obtain ⟨hsym, hnd, hpos, hsum, hlen⟩ := hInv
  rw [connect] at h
  cases ht : test_connect w p q c true with
  | error e =>
    simp only [ht] at h
    exact absurd h (by simp)
  | ok u =>
    simp only [ht] at h
    obtain ⟨htp, htq⟩ := test_connect_ok w p q c (by rw [ht])
    obtain ⟨hc0, hkp, hcomp, huvp, hcvp, himp⟩ := test_connect_one_spec w p q c htp
    obtain ⟨_, hkq, hcompq, huvq, hcvq, himq⟩ := test_connect_one_spec w q p c htq
    by_cases hc : c = 0
    · rw [if_pos hc] at h
      cases hd1 : dictDel (w.ports p).chosen_connections q with
      | error e =>
        simp only [hd1] at h
        exact absurd h (by simp)
      | ok d1 =>
        simp only [hd1] at h
        have hpq : p ≠ q := by
          intro he
          subst he
          have hfind : dictFind d1 p = none :=
            dictDel_ok_find_self _ _ _ (hnd p) hd1
          simp only [setConns_cc_self, dictDel_absent d1 p hfind] at h
          exact absurd h (by simp)
        have hqp : q ≠ p := fun he => hpq he.symm
        rw [setConns_cc_ne w p d1 q hqp] at h
        cases hd2 : dictDel (w.ports q).chosen_connections p with
        | error e =>
          simp only [hd2] at h
          exact absurd h (by simp)
        | ok d2 =>
          simp only [hd2, Except.ok.injEq] at h
          subst h
          have hccp : ∀ x, x ≠ p → x ≠ q →
              ((setConns (setConns w p d1) q d2).ports x).chosen_connections =
              (w.ports x).chosen_connections := by
            intro x hxp hxq
            rw [setConns_cc_ne _ _ _ x hxq, setConns_cc_ne _ _ _ x hxp]
          have hcp : ((setConns (setConns w p d1) q d2).ports p).chosen_connections = d1 := by
            rw [setConns_cc_ne _ _ _ p hpq, setConns_cc_self]
          have hcq : ((setConns (setConns w p d1) q d2).ports q).chosen_connections = d2 := by
            rw [setConns_cc_self]
          refine ⟨?_, ?_, ?_, ?_, ?_⟩
          · intro a b
            by_cases hab : a = b
            · subst hab; rfl
            · by_cases hap : a = p
              · subst hap
                rw [hcp]
                by_cases hbq : b = q
                · subst hbq
                  rw [hcq, dictDel_ok_find_self _ _ _ (hnd a) hd1,
                    dictDel_ok_find_self _ _ _ (hnd b) hd2]
                · rw [hccp b (fun he => hab he.symm) hbq,
                    dictDel_ok_find_ne _ _ _ _ hd1 hbq, hsym a b]
              · by_cases haq : a = q
                · subst haq
                  rw [hcq]
                  by_cases hbp : b = p
                  · subst hbp
                    rw [hcp, dictDel_ok_find_self _ _ _ (hnd a) hd2,
                      dictDel_ok_find_self _ _ _ (hnd b) hd1]
                  · rw [hccp b hbp (fun he => hab he.symm),
                      dictDel_ok_find_ne _ _ _ _ hd2 hbp, hsym a b]
                · rw [hccp a hap haq]
                  by_cases hbp : b = p
                  · subst hbp
                    rw [hcp, dictDel_ok_find_ne _ _ _ _ hd1 haq, hsym a b]
                  · by_cases hbq : b = q
                    · subst hbq
                      rw [hcq, dictDel_ok_find_ne _ _ _ _ hd2 hap, hsym a b]
                    · rw [hccp b hbp hbq, hsym a b]
          · intro x
            by_cases hxp : x = p
            · subst hxp; rw [hcp]; exact dictDel_ok_keys _ _ _ (hnd x) hd1
            · by_cases hxq : x = q
              · subst hxq; rw [hcq]; exact dictDel_ok_keys _ _ _ (hnd x) hd2
              · rw [hccp x hxp hxq]; exact hnd x
          · intro x pr hpr
            by_cases hxp : x = p
            · subst hxp
              rw [hcp] at hpr
              exact hpos x pr (dictDel_ok_mem _ _ _ hd1 pr hpr)
            · by_cases hxq : x = q
              · subst hxq
                rw [hcq] at hpr
                exact hpos x pr (dictDel_ok_mem _ _ _ hd2 pr hpr)
              · rw [hccp x hxp hxq] at hpr
                exact hpos x pr hpr
          · intro x m hm
            rw [show ((setConns (setConns w p d1) q d2).ports x).maximum_connections =
                (w.ports x).maximum_connections by rw [setConns_maxc, setConns_maxc]] at hm
            by_cases hxp : x = p
            · subst hxp
              rw [hcp, dictDel_ok_sum _ _ _ hd1]
              have := conn_violation_bound w x q c m hcvp hm
              rw [connProjected] at this
              omega
            · by_cases hxq : x = q
              · subst hxq
                rw [hcq, dictDel_ok_sum _ _ _ hd2]
                have := conn_violation_bound w x p c m hcvq hm
                rw [connProjected] at this
                omega
              · rw [hccp x hxp hxq]
                exact hsum x m hm
          · intro x mu hm
            rw [show ((setConns (setConns w p d1) q d2).ports x).maximum_unique_connections =
                (w.ports x).maximum_unique_connections by
                rw [setConns_maxu, setConns_maxu]] at hm
            by_cases hxp : x = p
            · subst hxp
              rw [hcp]
              have hl := dictDel_ok_length _ _ _ hd1
              have := uniq_violation_bound w x q c mu huvp hm
              rw [uniqProjected, if_pos (dictDel_ok_mem_true _ _ _ hd1)] at this
              rw [if_neg (by omega : ¬ c ≠ 0)] at this
              omega
            · by_cases hxq : x = q
              · subst hxq
                rw [hcq]
                have hl := dictDel_ok_length _ _ _ hd2
                have := uniq_violation_bound w x p c mu huvq hm
                rw [uniqProjected, if_pos (dictDel_ok_mem_true _ _ _ hd2)] at this
                rw [if_neg (by omega : ¬ c ≠ 0)] at this
                omega
              · rw [hccp x hxp hxq]
                exact hlen x mu hm
    · rw [if_neg hc] at h
      simp only [Except.ok.injEq] at h
      subst h
      have hc1 : 1 ≤ c := by omega
      by_cases hpq : p = q
      · subst hpq
        have hcp : ((setConns (setConns w p (dictSet (w.ports p).chosen_connections p c))
            p (dictSet ((setConns w p (dictSet (w.ports p).chosen_connections p c)).ports
            p).chosen_connections p c)).ports p).chosen_connections =
            dictSet (w.ports p).chosen_connections p c := by
          rw [setConns_cc_self, setConns_cc_self, dictSet_set_same]
        have hcco : ∀ x, x ≠ p →
            ((setConns (setConns w p (dictSet (w.ports p).chosen_connections p c))
            p (dictSet ((setConns w p (dictSet (w.ports p).chosen_connections p c)).ports
            p).chosen_connections p c)).ports x).chosen_connections =
            (w.ports x).chosen_connections := by
          intro x hxp
          rw [setConns_cc_ne _ _ _ x hxp, setConns_cc_ne _ _ _ x hxp]
        refine ⟨?_, ?_, ?_, ?_, ?_⟩
        · intro a b
          by_cases hab : a = b
          · subst hab; rfl
          · by_cases hap : a = p
            · subst hap
              rw [hcp, hcco b (fun he => hab he.symm),
                dictFind_set_ne _ _ _ _ (fun he => hab he.symm), hsym a b]
            · by_cases hbp : b = p
              · subst hbp
                rw [hcp, hcco a hap, dictFind_set_ne _ _ _ _ hap, hsym a b]
              · rw [hcco a hap, hcco b hbp, hsym a b]
        · intro x
          by_cases hxp : x = p
          · subst hxp; rw [hcp]; exact dictSet_keys_nodup _ _ _ (hnd x)
          · rw [hcco x hxp]; exact hnd x
        · intro x pr hpr
          by_cases hxp : x = p
          · subst hxp
            rw [hcp] at hpr
            rcases dictSet_mem _ _ _ pr hpr with h' | h'
            · rw [h']; exact hc1
            · exact hpos x pr h'
          · rw [hcco x hxp] at hpr
            exact hpos x pr hpr
        · intro x m hm
          rw [show ((setConns (setConns w p (dictSet (w.ports p).chosen_connections p c))
              p _).ports x).maximum_connections = (w.ports x).maximum_connections by
              rw [setConns_maxc, setConns_maxc]] at hm
          by_cases hxp : x = p
          · subst hxp
            rw [hcp, dictSet_sum]
            have := conn_violation_bound w x x c m hcvp hm
            rw [connProjected] at this
            omega
          · rw [hcco x hxp]
            exact hsum x m hm
        · intro x mu hm
          rw [show ((setConns (setConns w p (dictSet (w.ports p).chosen_connections p c))
              p _).ports x).maximum_unique_connections =
              (w.ports x).maximum_unique_connections by
              rw [setConns_maxu, setConns_maxu]] at hm
          by_cases hxp : x = p
          · subst hxp
            rw [hcp, dictSet_length]
            have := uniq_violation_bound w x x c mu huvp hm
            rw [uniqProjected, if_pos (by omega : c ≠ 0)] at this
            omega
          · rw [hcco x hxp]
            exact hlen x mu hm
      · have hqp : q ≠ p := fun he => hpq he.symm
        have hcq2 : ((setConns w p (dictSet (w.ports p).chosen_connections q c)).ports
            q).chosen_connections = (w.ports q).chosen_connections :=
          setConns_cc_ne _ _ _ q hqp
        have hcp : ((setConns (setConns w p (dictSet (w.ports p).chosen_connections q c))
            q (dictSet ((setConns w p (dictSet (w.ports p).chosen_connections q c)).ports
            q).chosen_connections p c)).ports p).chosen_connections =
            dictSet (w.ports p).chosen_connections q c := by
          rw [setConns_cc_ne _ _ _ p hpq, setConns_cc_self]
        have hcq : ((setConns (setConns w p (dictSet (w.ports p).chosen_connections q c))
            q (dictSet ((setConns w p (dictSet (w.ports p).chosen_connections q c)).ports
            q).chosen_connections p c)).ports q).chosen_connections =
            dictSet (w.ports q).chosen_connections p c := by
          rw [setConns_cc_self, hcq2]
        have hcco : ∀ x, x ≠ p → x ≠ q →
            ((setConns (setConns w p (dictSet (w.ports p).chosen_connections q c))
            q (dictSet ((setConns w p (dictSet (w.ports p).chosen_connections q c)).ports
            q).chosen_connections p c)).ports x).chosen_connections =
            (w.ports x).chosen_connections := by
          intro x hxp hxq
          rw [setConns_cc_ne _ _ _ x hxq, setConns_cc_ne _ _ _ x hxp]
        refine ⟨?_, ?_, ?_, ?_, ?_⟩
        · intro a b
          by_cases hab : a = b
          · subst hab; rfl
          · by_cases hap : a = p
            · subst hap
              rw [hcp]
              by_cases hbq : b = q
              · subst hbq
                rw [hcq, dictFind_set_self, dictFind_set_self]
              · rw [hcco b (fun he => hab he.symm) hbq,
                  dictFind_set_ne _ _ _ _ hbq, hsym a b]
            · by_cases haq : a = q
              · subst haq
                rw [hcq]
                by_cases hbp : b = p
                · subst hbp
                  rw [hcp, dictFind_set_self, dictFind_set_self]
                · rw [hcco b hbp (fun he => hab he.symm),
                    dictFind_set_ne _ _ _ _ hbp, hsym a b]
              · rw [hcco a hap haq]
                by_cases hbp : b = p
                · subst hbp
                  rw [hcp, dictFind_set_ne _ _ _ _ haq, hsym a b]
                · by_cases hbq : b = q
                  · subst hbq
                    rw [hcq, dictFind_set_ne _ _ _ _ hap, hsym a b]
                  · rw [hcco b hbp hbq, hsym a b]
        · intro x
          by_cases hxp : x = p
          · subst hxp; rw [hcp]; exact dictSet_keys_nodup _ _ _ (hnd x)
          · by_cases hxq : x = q
            · subst hxq; rw [hcq]; exact dictSet_keys_nodup _ _ _ (hnd x)
            · rw [hcco x hxp hxq]; exact hnd x
        · intro x pr hpr
          by_cases hxp : x = p
          · subst hxp
            rw [hcp] at hpr
            rcases dictSet_mem _ _ _ pr hpr with h' | h'
            · rw [h']; exact hc1
            · exact hpos x pr h'
          · by_cases hxq : x = q
            · subst hxq
              rw [hcq] at hpr
              rcases dictSet_mem _ _ _ pr hpr with h' | h'
              · rw [h']; exact hc1
              · exact hpos x pr h'
            · rw [hcco x hxp hxq] at hpr
              exact hpos x pr hpr
        · intro x m hm
          rw [show ((setConns (setConns w p (dictSet (w.ports p).chosen_connections q c))
              q _).ports x).maximum_connections = (w.ports x).maximum_connections by
              rw [setConns_maxc, setConns_maxc]] at hm
          by_cases hxp : x = p
          · subst hxp
            rw [hcp, dictSet_sum]
            have := conn_violation_bound w x q c m hcvp hm
            rw [connProjected] at this
            omega
          · by_cases hxq : x = q
            · subst hxq
              rw [hcq, dictSet_sum]
              have := conn_violation_bound w x p c m hcvq hm
              rw [connProjected] at this
              omega
            · rw [hcco x hxp hxq]
              exact hsum x m hm
        · intro x mu hm
          rw [show ((setConns (setConns w p (dictSet (w.ports p).chosen_connections q c))
              q _).ports x).maximum_unique_connections =
              (w.ports x).maximum_unique_connections by
              rw [setConns_maxu, setConns_maxu]] at hm
          by_cases hxp : x = p
          · subst hxp
            rw [hcp, dictSet_length]
            have := uniq_violation_bound w x q c mu huvp hm
            rw [uniqProjected, if_pos (by omega : c ≠ 0)] at this
            omega
          · by_cases hxq : x = q
            · subst hxq
              rw [hcq, dictSet_length]
              have := uniq_violation_bound w x p c mu huvq hm
              rw [uniqProjected, if_pos (by omega : c ≠ 0)] at this
              omega
            · rw [hcco x hxp hxq]
              exact hlen x mu hm

theorem runOp_ok_inv (w : PWorld) (op : POp) (w' : PWorld) (hInv : Inv w)
    (h : runOp w op = Except.ok w') : Inv w' := by
  cases op with
  | connectOp p q c => exact connect_ok_inv w p q c w' hInv h
  | multiConnectOp p q c => exact connect_ok_inv w p q _ w' hInv h
  | disconnectOp p q c =>
    cases c with
    | none => exact connect_ok_inv w p q 0 w' hInv h
    | some cv =>
      rw [runOp, disconnect] at h
      split_ifs at h with h1
      exact connect_ok_inv w p q _ w' hInv h

theorem runOps_ok_inv : ∀ (ops : List POp) (w w' : PWorld), Inv w →
    runOps w ops = Except.ok w' → Inv w' := by
  intro ops
  induction ops with
  | nil =>
    intro w w' hI h
    rw [runOps] at h
    simp only [Except.ok.injEq] at h
    exact h ▸ hI
  | cons op rest ih =>
    intro w w' hI h
    rw [runOps] at h
    cases hop : runOp w op with
    | error e =>
      simp only [hop] at h
      exact absurd h (by simp)
    | ok w1 =>
      simp only [hop] at h
      exact ih w1 w' (runOp_ok_inv w op w1 hI hop) h

/-- C7: after any sequence of successful `connect` / `multi_connect` /
`disconnect` operations from a state satisfying the port invariant, every
pair of ports has symmetric `chosen_connections` entries, every port's
total connection count respects `maximum_connections`, and every port's
number of unique connections respects `maximum_unique_connections`. -/
theorem C7_connection_invariant (w : PWorld) (ops : List POp) (w' : PWorld)
    (hInv : Inv w) (hrun : runOps w ops = Except.ok w') :
    (∀ p q, dictFind ((w'.ports p).chosen_connections) q =
      dictFind ((w'.ports q).chosen_connections) p) ∧
    (∀ p m, (w'.ports p).maximum_connections = some m →
      sumValues (w'.ports p).chosen_connections ≤ m) ∧
    (∀ p m, (w'.ports p).maximum_unique_connections = some m →
      ((w'.ports p).chosen_connections.length : Int) ≤ m) := by
  obtain ⟨h1, _, _, h4, h5⟩ := runOps_ok_inv ops w w' hInv hrun
  exact ⟨h1, h4, h5⟩

theorem initW_inv : Inv initW := by
  refine ⟨fun p q => rfl, fun p => by simp [initW], ?_, ?_, ?_⟩
  · intro p pr hpr
    exact absurd hpr (List.not_mem_nil pr)
  · intro p m hm
    simp only [initW, Option.some.injEq] at hm
    subst hm
    change sumValues [] ≤ (2 : Int)
    decide
  · intro p m hm
    simp only [initW, Option.some.injEq] at hm
    subst hm
    change (((([] : List (PId × Int))).length : Nat) : Int) ≤ (2 : Int)
    decide

/-- C7 witness: the invariant theorem applied to a concrete run
(connect, multi-connect, then partially disconnect two ports). -/
theorem C7_connection_invariant_witness :
    runOps initW opsEx = Except.ok runW0 ∧
    dictFind ((runW0.ports 0).chosen_connections) 1 =
      dictFind ((runW0.ports 1).chosen_connections) 0 ∧
    sumValues (runW0.ports 0).chosen_connections ≤ 2 ∧
    ((runW0.ports 0).chosen_connections.length : Int) ≤ 2 :=
  ⟨rfl,
   (C7_connection_invariant initW opsEx runW0 initW_inv rfl).1 0 1,
   (C7_connection_invariant initW opsEx runW0 initW_inv rfl).2.1 0 2 rfl,
   (C7_connection_invariant initW opsEx runW0 initW_inv rfl).2.2 0 2 rfl⟩

/-- C10 counterexample: with two fresh compatible ports that are not
connected, `connect(other, 0)` raises `AttributeError` (from the branching
dictionary's `popattr`), not `KeyError` as the claim states. -/
theorem C10_counterexample :
    connect initW 0 1 0 = Except.error PyError.attributeError ∧
    connect initW 0 1 0 ≠ Except.error PyError.keyError := by
  constructor
  · rfl
  · intro h
    rw [show connect initW 0 1 0 = Except.error PyError.attributeError from rfl] at h
    exact PyError.noConfusion (Except.error.inj h)

/-- C10 (amended): for every pair of ports that passes `test_connect` with
count 0 and has no `chosen_connections` entry for the peer, `connect(q, 0)`
— and hence `disconnect(q)` with no count — raises `AttributeError`
instead of being a no-op, because the deletion accesses the absent
`('_valuefor', key)` attribute of the branching dictionary. -/
theorem C10_connect_zero_error (w : PWorld) (p q : PId)
    (ht : test_connect w p q 0 true = Except.ok ())
    (habs : dictFind (w.ports p).chosen_connections q = none) :
    connect w p q 0 = Except.error PyError.attributeError ∧
    disconnect w p q none = Except.error PyError.attributeError := by
  have hc : connect w p q 0 = Except.error PyError.attributeError := by
    simp [connect, ht, dictDel_absent _ _ habs]
  exact ⟨hc, hc⟩

/-- C10 witness: the amended theorem at the concrete fresh-port world. -/
theorem C10_connect_zero_error_witness :
    connect initW 0 1 0 = Except.error PyError.attributeError ∧
    disconnect initW 0 1 none = Except.error PyError.attributeError :=
  C10_connect_zero_error initW 0 1 rfl rfl

end AomgPorts

namespace AomgVertex

open AomgCond

theorem vs_upd_self (e : Engine) (i : Nat) (s : VState) : (e.upd i s).vs i = s := by
  simp [Engine.upd]

theorem vs_upd_ne (e : Engine) (i : Nat) (s : VState) (j : Nat) (h : j ≠ i) :
    (e.upd i s).vs j = e.vs j := by
  simp [Engine.upd, h]

theorem engine_ext {e1 e2 : Engine} (h : ∀ i, e1.vs i = e2.vs i) : e1 = e2 := by
  cases e1
  cases e2
  congr 1
  exact funext h

theorem vsimplify_stable {fuel : Nat} {e : Engine} {v : Nat} {a : String}
    {b : Option Nat}
    (hc : (e.vs v).condition = Cond.PlaceholderCondition a b)
    (hf : 1 ≤ fuel)
    (hn : simplify e.env fuel (e.vs v).necessary_condition =
      some ((e.vs v).necessary_condition))
    (hnF : (e.vs v).necessary_condition ≠ Cond.FalseCondition)
    (hs : simplify e.env fuel (e.vs v).sufficient_condition =
      some ((e.vs v).sufficient_condition))
    (hsT : (e.vs v).sufficient_condition ≠ Cond.TrueCondition) :
    vsimplify fuel e v = some (e, false) := by
  have hps := stable_placeholder e.env a b fuel hf
  simp [vsimplify, hc, hps, hn, hs, hnF, hsT]

theorem maybe_simplify_unknown (fuel : Nat) (e : Engine) (v : Nat)
    (hk : (e.vs v).is_known = false) (he : (e.vs v).equivalent_to = none) :
    maybe_simplify fuel e v = vsimplify fuel e v := by
  simp [maybe_simplify, hk, he]

theorem maybe_simplify_known (fuel : Nat) {e : Engine} {v : Nat}
    (hk : (e.vs v).is_known = true) :
    maybe_simplify fuel e v = some (e, false) := by
  simp [maybe_simplify, hk]

theorem ms_stable {f : Nat} {e : Engine} {x : Nat} {a : String} {b : Option Nat}
    (hf : 1 ≤ f)
    (hk : (e.vs x).is_known = false)
    (he : (e.vs x).equivalent_to = none)
    (hc : (e.vs x).condition = Cond.PlaceholderCondition a b)
    (hn : simplify e.env f (e.vs x).necessary_condition =
      some ((e.vs x).necessary_condition))
    (hnF : (e.vs x).necessary_condition ≠ Cond.FalseCondition)
    (hs : simplify e.env f (e.vs x).sufficient_condition =
      some ((e.vs x).sufficient_condition))
    (hsT : (e.vs x).sufficient_condition ≠ Cond.TrueCondition) :
    maybe_simplify f e x = some (e, false) := by
  rw [maybe_simplify_unknown f e x hk he]
  exact vsimplify_stable hc hf hn hnF hs hsT

theorem ms_necK (n k f x : Nat) (hf : 1 ≤ f) :
    maybe_simplify f (necK n k) x = some (necK n k, false) :=
  ms_stable hf rfl rfl rfl
    (stable_vertex _ _ rfl rfl f hf) (by simp [necK])
    (stable_placeholder _ _ _ f hf) (by simp [necK])

theorem ms_necInit (n f x : Nat) (hf : 1 ≤ f) :
    maybe_simplify f (necInit n) x = some (necInit n, false) :=
  ms_stable hf rfl rfl rfl
    (stable_vertex _ _ rfl rfl f hf) (by simp [necInit])
    (stable_placeholder _ _ _ f hf) (by simp [necInit])

theorem stackK_cons (k : Nat) : stackK k = k :: (List.range k).reverse := by
  simp [stackK, List.range_succ]

theorem mem_stackK {i k : Nat} : i ∈ stackK k ↔ i < k + 1 := by
  simp [stackK]

theorem newNec_ph_V (a : String) (b : Option Nat) (x : Nat) :
    find_necessary_vertices (AndCC (Cond.PlaceholderCondition a b)
      (Cond.VertexCondition x)) = [x] := rfl

theorem necK_upd (n k : Nat) (hk : k + 1 < n) :
    (necK n k).upd (k + 1)
      { (necK n k).vs (k + 1) with necessary_vertices := [(k + 1 + 1) % n] } =
    necK n (k + 1) := by
  apply engine_ext
  intro i
  by_cases h : i = k + 1
  · subst h
    rw [vs_upd_self]
    simp [necK, Nat.le_refl, Nat.not_succ_le_self]
  · rw [vs_upd_ne _ _ _ _ h]
    simp only [necK]
    by_cases hi : i ≤ k
    · rw [if_pos hi, if_pos (by omega)]
    · rw [if_neg hi, if_neg (by omega)]

theorem necLoop_step (n k g : Nat) (hk : k + 1 < n) (hg : 1 ≤ g) :
    necLoop (necK n k) 0 (g + 1) (stackK k) (stackK k) (framesK n k) =
    necLoop (necK n (k + 1)) 0 g (stackK (k + 1)) (stackK (k + 1))
      (framesK n (k + 1)) := by
  have hmod : (k + 1) % n = k + 1 := Nat.mod_eq_of_lt hk
  have hnotmem : ¬ (k + 1 ∈ stackK k) := by
    rw [mem_stackK]; omega
  have hvs : ((necK n k).vs (k + 1)).necessary_vertices = [] := by
    simp [necK]
  have hnewnec : newNecessary (necK n k) (k + 1) = [(k + 1 + 1) % n] := by
    rw [newNecessary]
    exact newNec_ph_V "exact" (some (k + 1)) ((k + 1 + 1) % n)
  conv_lhs => rw [stackK_cons, framesK]
  rw [necLoop, hmod]
  rw [if_neg (by rw [stackK_cons] at hnotmem; exact hnotmem)]
  rw [ms_necK n k g (k + 1) hg]
  simp only []
  rw [if_neg (by simp [necK])]
  rw [hvs, hnewnec]
  simp only [addNew]
  rw [if_neg (by simp)]
  simp only [addNew, List.nil_append]
  rw [show ((k + 1) :: k :: (List.range k).reverse) = stackK (k + 1) by
    simp [stackK, List.range_succ]]
  rw [show ([(k + 1 + 1) % n].reverse :: [] :: List.replicate k ([] : List Nat)) =
    framesK n (k + 1) from rfl]
  exact congrArg
    (fun e => necLoop e 0 g (stackK (k + 1)) (stackK (k + 1)) (framesK n (k + 1)))
    (necK_upd n k hk)

theorem necLoop_detect (n g : Nat) (hn : 1 ≤ n) (hg : 1 ≤ g) :
    necLoop (necK n (n - 1)) 0 g (stackK (n - 1)) (stackK (n - 1))
      (framesK n (n - 1)) =
    some (necFin n, true) := by
  obtain ⟨g', rfl⟩ : ∃ g', g = g' + 1 := ⟨g - 1, by omega⟩
  have hmod : (n - 1 + 1) % n = 0 := by
    rw [Nat.sub_add_cancel hn, Nat.mod_self]
  have hmem : 0 ∈ stackK (n - 1) := by rw [mem_stackK]; omega
  conv_lhs => rw [stackK_cons, framesK]
  rw [necLoop, hmod]
  rw [if_pos (by rw [stackK_cons] at hmem; exact hmem)]
  rw [if_pos (by rw [stackK_cons] at hmem; exact hmem)]
  rw [necFin, show ((n - 1) :: (List.range (n - 1)).reverse) = stackK (n - 1) from
    (stackK_cons (n - 1)).symm]

theorem necLoop_run (n : Nat) :
    ∀ j k g, k + j + 1 = n → n - k ≤ g →
    necLoop (necK n k) 0 g (stackK k) (stackK k) (framesK n k) =
    some (necFin n, true) := by
  intro j
  induction j with
  | zero =>
    intro k g hkj hg
    have hk : k = n - 1 := by omega
    subst hk
    exact necLoop_detect n g (by omega) (by omega)
  | succ j ih =>
    intro k g hkj hg
    obtain ⟨g', rfl⟩ : ∃ g', g = g' + 1 := ⟨g - 1, by omega⟩
    rw [necLoop_step n k g' (by omega) (by omega)]
    exact ih (k + 1) g' (by omega) (by omega)

theorem necInit_upd (n : Nat) :
    (necInit n).upd 0 { (necInit n).vs 0 with necessary_vertices := [1 % n] } =
    necK n 0 := by
  apply engine_ext
  intro i
  by_cases h : i = 0
  · subst h
    rw [vs_upd_self]
    simp [necInit, necK]
  · rw [vs_upd_ne _ _ _ _ h]
    simp only [necInit, necK]
    rw [if_neg (by omega)]

theorem checkNec_cycle (n fuel : Nat) (hn : 1 ≤ n) (hf : n ≤ fuel) :
    check_for_necessity_loops fuel (necInit n) 0 = some (necFin n, true) := by
  have hnew : newNecessary (necInit n) 0 = [1 % n] := by
    rw [newNecessary]
    exact newNec_ph_V "exact" (some 0) (1 % n)
  have haddNew : addNew ((necInit n).vs 0).necessary_vertices
      (newNecessary (necInit n) 0) = ([1 % n], true) := by
    rw [show ((necInit n).vs 0).necessary_vertices = [] from rfl, hnew]
    rfl
  rw [check_for_necessity_loops, haddNew]
  exact (congrArg
    (fun e => necLoop e 0 fuel [0] [0] [[1 % n].reverse]) (necInit_upd n)).trans
    (necLoop_run n (n - 1) 0 fuel (by omega) (by omega))

theorem skf_vs_ne (e : Engine) (j i : Nat) (b : Bool) (h : i ≠ j) :
    (set_known_access e j b).vs i = e.vs i := by
  unfold set_known_access
  split
  · rfl
  · rw [vs_upd_ne _ _ _ _ h]

theorem skf_self (e : Engine) (i : Nat) (hk : (e.vs i).is_known = false) :
    ((set_known_access e i false).vs i).is_known = true ∧
    ((set_known_access e i false).vs i).known_access = false := by
  unfold set_known_access
  rw [if_neg (by simp [hk]), vs_upd_self]
  exact ⟨rfl, rfl⟩

theorem foldSetFalse_preserve (l : List Nat) (e : Engine) (i : Nat)
    (h : ((e.vs i).is_known = true ∧ (e.vs i).known_access = false)) :
    (((l.foldl (fun acc v => set_known_access acc v false) e).vs i).is_known = true ∧
     ((l.foldl (fun acc v => set_known_access acc v false) e).vs i).known_access =
       false) := by
  induction l generalizing e with
  | nil => exact h
  | cons v rest ih =>
    apply ih
    show ((set_known_access e v false).vs i).is_known = true ∧
      ((set_known_access e v false).vs i).known_access = false
    by_cases hv : i = v
    · subst hv
      unfold set_known_access
      rw [if_pos h.1]
      exact h
    · rw [skf_vs_ne _ _ _ _ hv]
      exact h

theorem foldSetFalse_mem (l : List Nat) (e : Engine) (i : Nat) (hi : i ∈ l)
    (hk : (e.vs i).is_known = false) :
    (((l.foldl (fun acc v => set_known_access acc v false) e).vs i).is_known = true ∧
     ((l.foldl (fun acc v => set_known_access acc v false) e).vs i).known_access =
       false) := by
  induction l generalizing e with
  | nil => cases hi
  | cons v rest ih =>
    by_cases hv : i = v
    · subst hv
      exact foldSetFalse_preserve rest _ i (skf_self e i hk)
    · rcases List.mem_cons.mp hi with h' | hmem
      · exact absurd h' hv
      · refine ih _ hmem ?_
        show ((set_known_access e v false).vs i).is_known = false
        rw [skf_vs_ne _ _ _ _ hv]
        exact hk

theorem necFin_known (n i : Nat) (hi : i < n) :
    ((necFin n).vs i).is_known = true ∧ ((necFin n).vs i).known_access = false := by
  rw [necFin, stackSetFalse]
  apply foldSetFalse_mem
  · rw [stackK, List.reverse_reverse, List.mem_range]
    omega
  · simp [necK]

theorem cycle_upd (n : Nat) :
    (cycleEngine n).upd 0 { (cycleEngine n).vs 0 with condition_fixed := true } =
    necInit n := by
  apply engine_ext
  intro i
  by_cases h : i = 0
  · subst h
    rw [vs_upd_self]
    simp [cycleEngine, necInit]
  · rw [vs_upd_ne _ _ _ _ h]
    simp [cycleEngine, necInit, h]

theorem fd_cycle (n fuel : Nat) (hn : 0 < n) (hf : n + 2 ≤ fuel) :
    fast_deduce fuel (cycleEngine n) 0 = some (necFin n) := by
  obtain ⟨f', rfl⟩ : ∃ f', fuel = f' + 1 + 1 := ⟨fuel - 2, by omega⟩
  have hms := ms_necInit n (f' + 1 + 1) 0 (by omega)
  have hcn := checkNec_cycle n (f' + 1) (by omega) (by omega)
  have hneg : ¬ (((necFin n).vs 0).equivalent_to = none ∧
      ((necFin n).vs 0).is_known = false) := by
    simp [(necFin_known n 0 hn).1]
  refine (congrArg (fun e =>
    match maybe_simplify (f' + 1 + 1) e 0 with
    | none => none
    | some (e1, _) => fdLoop e1 0 (f' + 1 + 1)) (cycle_upd n)).trans ?_
  simp only [hms]
  rw [fdLoop, if_pos ⟨rfl, rfl⟩]
  simp only [hcn, if_true]
  simp only [@maybe_simplify_known (f' + 1) (necFin n) 0 (necFin_known n 0 hn).1]
  rw [fdLoop, if_neg hneg]

/-- C3: necessity-loop deduction.  `cycleEngine n` is an `n`-vertex
necessity cycle: every vertex's combined exact-and-necessary condition
makes the next vertex (circularly) necessary.  Running `fast_deduce` on a
vertex of the cycle with enough fuel terminates, and afterwards every
cycle member is known with `known_access` false (unreachable). -/
theorem C3_necessity_loop_deduction (n fuel : Nat) (hn : 0 < n)
    (hf : n + 2 ≤ fuel) :
    ∃ e', fast_deduce fuel (cycleEngine n) 0 = some e' ∧
      ∀ i, i < n → ((e'.vs i).is_known = true ∧ (e'.vs i).known_access = false) :=
  ⟨necFin n, fd_cycle n fuel hn hf, fun i hi => necFin_known n i hi⟩

/-- C3 witness: the three-vertex necessity cycle, fully deduced. -/
theorem C3_necessity_loop_deduction_witness :
    0 < 3 ∧ 3 + 2 ≤ 10 ∧
    ∃ e', fast_deduce 10 (cycleEngine 3) 0 = some e' ∧
      ∀ i, i < 3 → ((e'.vs i).is_known = true ∧ (e'.vs i).known_access = false) :=
  ⟨by decide, by decide, C3_necessity_loop_deduction 3 10 (by decide) (by decide)⟩

theorem upd_self_eta (e : Engine) (v : Nat) : e.upd v (e.vs v) = e := by
  apply engine_ext
  intro i
  by_cases h : i = v
  · subst h
    rw [vs_upd_self]
  · rw [vs_upd_ne _ _ _ _ h]

theorem checkNecS (n f : Nat) :
    check_for_necessity_loops f (sufInit n) 0 = some (sufInit n, false) :=
  congrArg (fun e => some (e, false)) (upd_self_eta (sufInit n) 0)

theorem ms_sufK (n k f x : Nat) (hf : 1 ≤ f) :
    maybe_simplify f (sufK n k) x = some (sufK n k, false) :=
  ms_stable hf rfl rfl rfl
    (stable_placeholder _ _ _ f hf) (by simp [sufK])
    (stable_vertex _ _ rfl rfl f hf) (by simp [sufK])

theorem ms_sufInit (n f x : Nat) (hf : 1 ≤ f) :
    maybe_simplify f (sufInit n) x = some (sufInit n, false) :=
  ms_stable hf rfl rfl rfl
    (stable_placeholder _ _ _ f hf) (by simp [sufInit])
    (stable_vertex _ _ rfl rfl f hf) (by simp [sufInit])

theorem newSuf_ph_V (a : String) (b : Option Nat) (x : Nat) :
    find_sufficient_vertices (OrCC (Cond.PlaceholderCondition a b)
      (Cond.VertexCondition x)) = [x] := rfl

theorem sufK_upd (n k : Nat) (hk : k + 1 < n) :
    (sufK n k).upd (k + 1)
      { (sufK n k).vs (k + 1) with sufficient_vertices := [(k + 1 + 1) % n] } =
    sufK n (k + 1) := by
  apply engine_ext
  intro i
  by_cases h : i = k + 1
  · subst h
    rw [vs_upd_self]
    simp [sufK, Nat.le_refl, Nat.not_succ_le_self]
  · rw [vs_upd_ne _ _ _ _ h]
    simp only [sufK]
    by_cases hi : i ≤ k
    · rw [if_pos hi, if_pos (by omega)]
    · rw [if_neg hi, if_neg (by omega)]

theorem sufLoop_step (n k g f0 : Nat) (hk : k + 1 < n) (hg : 1 ≤ g) :
    sufLoop f0 (sufK n k) 0 (g + 1) (stackK k) (stackK k) (framesK n k) =
    sufLoop f0 (sufK n (k + 1)) 0 g (stackK (k + 1)) (stackK (k + 1))
      (framesK n (k + 1)) := by
  have hmod : (k + 1) % n = k + 1 := Nat.mod_eq_of_lt hk
  have hnotmem : ¬ (k + 1 ∈ stackK k) := by
    rw [mem_stackK]; omega
  have hvs : ((sufK n k).vs (k + 1)).sufficient_vertices = [] := by
    simp [sufK]
  have hnewsuf : newSufficient (sufK n k) (k + 1) = [(k + 1 + 1) % n] := by
    rw [newSufficient]
    exact newSuf_ph_V "exact" (some (k + 1)) ((k + 1 + 1) % n)
  conv_lhs => rw [stackK_cons, framesK]
  rw [sufLoop, hmod]
  rw [if_neg (by rw [stackK_cons] at hnotmem; exact hnotmem)]
  rw [ms_sufK n k g (k + 1) hg]
  simp only []
  rw [if_neg (by simp [sufK])]
  rw [hvs, hnewsuf]
  simp only [addNew]
  rw [if_neg (by simp)]
  simp only [addNew, List.nil_append]
  rw [show ((k + 1) :: k :: (List.range k).reverse) = stackK (k + 1) by
    simp [stackK, List.range_succ]]
  rw [show ([(k + 1 + 1) % n].reverse :: [] :: List.replicate k ([] : List Nat)) =
    framesK n (k + 1) from rfl]
  exact congrArg
    (fun e => sufLoop f0 e 0 g (stackK (k + 1)) (stackK (k + 1)) (framesK n (k + 1)))
    (sufK_upd n k hk)

theorem takeWhile_append_all {p : Nat → Bool} :
    ∀ (l : List Nat), (∀ x ∈ l, p x = true) → ∀ a, p a = false →
    (l ++ [a]).takeWhile p = l := by
  intro l
  induction l with
  | nil =>
    intro _ a ha
    simp [List.takeWhile_cons, ha]
  | cons x rest ih =>
    intro h a ha
    have hx := h x (List.mem_cons_self x rest)
    simp [List.takeWhile_cons, hx,
      ih (fun y hy => h y (List.mem_cons_of_mem x hy)) a ha]

theorem stackFrom_stackK (k : Nat) : stackFrom (stackK k) 0 = List.range (k + 1) := by
  have hsplit : stackK k = ((List.range k).map Nat.succ).reverse ++ [0] := by
    rw [stackK, List.range_succ_eq_map, List.reverse_cons]
  have hall : ∀ x ∈ ((List.range k).map Nat.succ).reverse,
      (fun y => decide (y ≠ 0)) x = true := by
    intro x hx
    rw [List.mem_reverse] at hx
    obtain ⟨y, _, rfl⟩ := List.mem_map.mp hx
    simp
  rw [stackFrom, hsplit, takeWhile_append_all _ hall 0 rfl]
  rw [← List.reverse_cons, List.reverse_reverse, ← List.range_succ_eq_map]

theorem chaseRoot_none (e : Engine) (f v : Nat) (hf : 1 ≤ f)
    (he : (e.vs v).equivalent_to = none) : chaseRoot e f v = some v := by
  obtain ⟨g, rfl⟩ : ∃ g, f = g + 1 := ⟨f - 1, by omega⟩
  rw [chaseRoot, he]

theorem collectRootsAux_spec (f : Nat) (hf : 1 ≤ f) (e : Engine) :
    ∀ (l acc : List Nat) (last : Nat),
    (∀ v ∈ l, (e.vs v).equivalent_to = none) →
    (∀ v ∈ l, v ∉ acc) → l.Nodup →
    collectRootsAux f e l acc last = some (acc ++ l, l.getLastD last) := by
  intro l
  induction l with
  | nil =>
    intro acc last _ _ _
    simp [collectRootsAux]
  | cons v rest ih =>
    intro acc last h1 h2 h3
    rw [collectRootsAux, chaseRoot_none e f v hf (h1 v (by simp))]
    simp only []
    rw [if_neg (h2 v (by simp))]
    rw [ih (acc ++ [v]) v (fun u hu => h1 u (by simp [hu]))
      (by
        intro u hu
        rw [List.mem_append]
        push_neg
        refine ⟨h2 u (by simp [hu]), ?_⟩
        simp only [List.mem_singleton]
        exact fun hv => (List.nodup_cons.mp h3).1 (hv ▸ hu))
      (List.nodup_cons.mp h3).2]
    rw [List.append_assoc, List.singleton_append, List.getLastD_cons]

theorem collectRoots_range (n f : Nat) (hf : 1 ≤ f) (hn : 1 ≤ n) :
    collectRoots f (sufK n (n - 1)) (List.range n) = some (List.range n, n - 1) := by
  rw [collectRoots]
  rw [collectRootsAux_spec f hf _ (List.range n) [] 0 (fun v _ => rfl)
    (by simp) (List.nodup_range n)]
  obtain ⟨m, rfl⟩ : ∃ m, n = m + 1 := ⟨n - 1, by omega⟩
  rw [List.range_succ, List.getLastD_concat]
  simp

theorem set_base_ph_some (pn : String) (x : Nat) (b : Option Nat) :
    set_base (Cond.PlaceholderCondition pn (some x)) b =
    Cond.PlaceholderCondition pn (some x) := by
  rw [set_base, if_neg (by simp)]

theorem substitute_ph_vert (pn : String) (pb : Option Nat) (v : Nat) (r : Cond)
    (b : Option Nat) :
    substitute (Cond.PlaceholderCondition pn pb) (SubName.vert v) r b =
    Cond.PlaceholderCondition pn pb := by
  rw [substitute, if_neg]
  rintro ⟨h, _⟩
  cases h

theorem substituteList_P (v : Nat) :
    ∀ (l : List Cond), (∀ c ∈ l, condOkP c) →
    ∀ c ∈ substituteList l (SubName.vert v) Cond.FalseCondition none, condOkP c := by
  intro l
  induction l with
  | nil =>
    intro _ c hc
    cases hc
  | cons a rest ih =>
    intro h c hc
    rw [substituteList] at hc
    rcases List.mem_cons.mp hc with rfl | hmem
    · rcases h a (by simp) with hF | ⟨pn, pb, hph⟩ | ⟨x, hV⟩
      · rw [hF]
        exact Or.inl rfl
      · rw [hph, substitute_ph_vert]
        exact Or.inr (Or.inl ⟨pn, pb, rfl⟩)
      · rw [hV, substitute]
        split
        · exact Or.inl rfl
        · exact Or.inr (Or.inr ⟨x, rfl⟩)
    · exact ih (fun d hd => h d (by simp [hd])) c hmem

theorem substAllFalse_AtLeast (cnt : Int) :
    ∀ (cvs : List Nat) (l : List Cond), (∀ c ∈ l, condOkP c) →
    ∃ l', substAllFalse cvs (Cond.AtLeastCondition cnt l) =
      Cond.AtLeastCondition cnt l' ∧ ∀ c ∈ l', condOkP c := by
  intro cvs
  induction cvs with
  | nil =>
    intro l h
    exact ⟨l, rfl, h⟩
  | cons v vs ih =>
    intro l h
    have hstep : substAllFalse (v :: vs) (Cond.AtLeastCondition cnt l) =
        substAllFalse vs (substitute (Cond.AtLeastCondition cnt l)
          (SubName.vert v) Cond.FalseCondition none) := rfl
    rw [hstep, substitute]
    by_cases hnew : substituteList l (SubName.vert v) Cond.FalseCondition none = l
    · rw [if_pos hnew]
      exact ih l h
    · rw [if_neg hnew]
      exact ih _ (substituteList_P v l h)

theorem mapOpt_some_of_forall {α β : Type} {f : α → Option β} :
    ∀ {l : List α}, (∀ a ∈ l, ∃ b, f a = some b) → ∃ bs, mapOpt f l = some bs := by
  intro l
  induction l with
  | nil =>
    intro _
    exact ⟨[], rfl⟩
  | cons a rest ih =>
    intro h
    obtain ⟨b, hb⟩ := h a (by simp)
    obtain ⟨bs, hbs⟩ := ih (fun x hx => h x (by simp [hx]))
    exact ⟨b :: bs, by rw [mapOpt, hb, hbs]⟩

theorem simplify_V_ok (env : CondEnv) (x : Nat) (he : env.vertexEquiv x = none)
    (f : Nat) (hf : 1 ≤ f) :
    ∃ r, simplify env f (Cond.VertexCondition x) = some r := by
  obtain ⟨g, rfl⟩ : ∃ g, f = g + 1 := ⟨f - 1, by omega⟩
  refine Option.isSome_iff_exists.mp ?_
  by_cases hk : env.vertexKnown x
  · simp [simplify, hk]
  · simp [simplify, hk, he]

theorem simplify_P_child (env : CondEnv) (he : ∀ x, env.vertexEquiv x = none)
    (f : Nat) (hf : 1 ≤ f) (c : Cond) (hc : condOkP c) :
    ∃ r, simplify env f c = some r := by
  rcases hc with hF | ⟨pn, pb, hph⟩ | ⟨x, hV⟩
  · exact ⟨_, hF ▸ stable_false env f hf⟩
  · exact ⟨_, hph ▸ stable_placeholder env pn pb f hf⟩
  · exact hV ▸ simplify_V_ok env x (he x) f hf

theorem simplify_AtLeast_ok (env : CondEnv) (he : ∀ x, env.vertexEquiv x = none)
    (f : Nat) (hf : 1 ≤ f) (cnt : Int) (l : List Cond)
    (hP : ∀ c ∈ l, condOkP c) :
    ∃ r, simplify env (f + 1) (Cond.AtLeastCondition cnt l) = some r := by
  obtain ⟨rs, hrs⟩ :=
    mapOpt_some_of_forall (fun c hc => simplify_P_child env he f hf c (hP c hc))
  refine Option.isSome_iff_exists.mp ?_
  simp only [simplify, hrs]
  split
  · rfl
  · rfl

theorem AtLeast_one_long (l : List Cond) (hl : 2 ≤ l.length) :
    AtLeast 1 (condList l) = Cond.AtLeastCondition 1 l := by
  rw [AtLeast, if_neg (by decide)]
  simp only [flatten_condList]
  rw [if_neg (by omega)]
  match l, hl with
  | a :: b :: rest, _ => rfl

theorem setEquivAll_spec (f : Nat) (hf : 1 ≤ f) (base : Nat) :
    ∀ (l : List Nat) (e : Engine),
    (e.vs base).is_known = false → (e.vs base).equivalent_to = none →
    ∃ e', setEquivAll f base e l = some e' ∧
      (∀ i, i ∈ l → i ≠ base → (e'.vs i).equivalent_to = some base) ∧
      (∀ i, (i ∉ l ∨ i = base) → e'.vs i = e.vs i) ∧
      (∀ i, (e'.vs i).is_known = (e.vs i).is_known) := by
  obtain ⟨g, rfl⟩ : ∃ g, f = g + 1 := ⟨f - 1, by omega⟩
  intro l
  induction l with
  | nil =>
    intro e _ _
    exact ⟨e, rfl, fun i hi => absurd hi (List.not_mem_nil i), fun i _ => rfl,
      fun i => rfl⟩
  | cons v rest ih =>
    intro e hk he
    by_cases hv : v = base
    · rw [setEquivAll, if_pos hv]
      obtain ⟨e', h1, h2, h3, h4⟩ := ih e hk he
      refine ⟨e', h1, ?_, ?_, h4⟩
      · intro i hi hib
        rcases List.mem_cons.mp hi with rfl | hmem
        · exact absurd hv hib
        · exact h2 i hmem hib
      · intro i hi
        apply h3
        rcases hi with hi | hi
        · exact Or.inl (fun hm => hi (List.mem_cons_of_mem v hm))
        · exact Or.inr hi
    · rw [setEquivAll, if_neg hv]
      have hbv : base ≠ v := fun h => hv h.symm
      have hset : set_equivalent_to e v (g + 1) base =
          some (e.upd v { e.vs v with equivalent_to := some base }) := by
        rw [set_equivalent_to, if_neg hbv, if_neg (by simp [hk]), he]
      rw [hset]
      obtain ⟨e', h1, h2, h3, h4⟩ :=
        ih (e.upd v { e.vs v with equivalent_to := some base })
          (by rw [vs_upd_ne _ _ _ _ hbv]; exact hk)
          (by rw [vs_upd_ne _ _ _ _ hbv]; exact he)
      refine ⟨e', h1, ?_, ?_, ?_⟩
      · intro i hi hib
        rcases List.mem_cons.mp hi with rfl | hmem
        · by_cases hir : i ∈ rest
          · exact h2 i hir hib
          · rw [h3 i (Or.inl hir), vs_upd_self]
        · exact h2 i hmem hib
      · intro i hi
        have hiv : i ≠ v := by
          rcases hi with hi | hi
          · intro h
            exact hi (h ▸ List.mem_cons_self v rest)
          · intro h
            apply hv
            omega
        have hir : i ∉ rest ∨ i = base := by
          rcases hi with hi | hi
          · exact Or.inl (fun hm => hi (List.mem_cons_of_mem v hm))
          · exact Or.inr hi
        rw [h3 i hir, vs_upd_ne _ _ _ _ hiv]
      · intro i
        rw [h4 i]
        by_cases hiv : i = v
        · subst hiv
          rw [vs_upd_self]
        · rw [vs_upd_ne _ _ _ _ hiv]

theorem sufInit_upd (n : Nat) :
    (sufInit n).upd 0 { (sufInit n).vs 0 with sufficient_vertices := [1 % n] } =
    sufK n 0 := by
  apply engine_ext
  intro i
  by_cases h : i = 0
  · subst h
    rw [vs_upd_self]
    simp [sufInit, sufK]
  · rw [vs_upd_ne _ _ _ _ h]
    simp only [sufInit, sufK]
    rw [if_neg (by omega)]

theorem sufCycle_upd (n : Nat) :
    (sufCycleEngine n).upd 0
      { (sufCycleEngine n).vs 0 with condition_fixed := true } = sufInit n := by
  apply engine_ext
  intro i
  by_cases h : i = 0
  · subst h
    rw [vs_upd_self]
    simp [sufCycleEngine, sufInit]
  · rw [vs_upd_ne _ _ _ _ h]
    simp [sufCycleEngine, sufInit, h]

theorem combine_range (n f : Nat) (hn : 2 ≤ n) (hf : 2 ≤ f) :
    ∃ e', combine_equivalent_vertices f (sufK n (n - 1)) (List.range n) = some e' ∧
      (e'.vs (n - 1)).equivalent_to = none ∧
      (∀ i, i < n → i ≠ n - 1 → (e'.vs i).equivalent_to = some (n - 1)) ∧
      (∀ i, (e'.vs i).is_known = false) := by
  obtain ⟨m, rfl⟩ : ∃ m, n = m + 2 := ⟨n - 2, by omega⟩
  obtain ⟨g, rfl⟩ : ∃ g, f = g + 1 := ⟨f - 1, by omega⟩
  have hg : 1 ≤ g := by omega
  simp only [show m + 2 - 1 = m + 1 from rfl]
  have hrange : List.range (m + 2) = 0 :: 1 :: (List.range m).map (fun x => 2 + x) := by
    rw [show m + 2 = 2 + m from by omega, List.range_add]
    rfl
  have hcr : collectRoots (g + 1) (sufK (m + 2) (m + 1)) (List.range (m + 2)) =
      some (List.range (m + 2), m + 1) :=
    collectRoots_range (m + 2) (g + 1) (by omega) (by omega)
  have hPnec : ∀ c ∈ (0 :: 1 :: (List.range m).map (fun x => 2 + x)).map
      (fun v => set_base ((sufK (m + 2) (m + 1)).vs v).necessary_condition (some v)),
      condOkP c := by
    intro c hc
    obtain ⟨v, _, rfl⟩ := List.mem_map.mp hc
    exact Or.inr (Or.inl ⟨"necessary", some v, set_base_ph_some "necessary" v (some v)⟩)
  have hPcon : ∀ c ∈ (0 :: 1 :: (List.range m).map (fun x => 2 + x)).map
      (fun v => set_base ((sufK (m + 2) (m + 1)).vs v).condition (some v)),
      condOkP c := by
    intro c hc
    obtain ⟨v, _, rfl⟩ := List.mem_map.mp hc
    exact Or.inr (Or.inl ⟨"exact", some v, set_base_ph_some "exact" v (some v)⟩)
  have hPsuf : ∀ c ∈ (0 :: 1 :: (List.range m).map (fun x => 2 + x)).map
      (fun v => set_base ((sufK (m + 2) (m + 1)).vs v).sufficient_condition (some v)),
      condOkP c := by
    intro c hc
    obtain ⟨v, _, rfl⟩ := List.mem_map.mp hc
    exact Or.inr (Or.inr ⟨(v + 1) % (m + 2), rfl⟩)
  obtain ⟨lnec, hsubnec, hPnec'⟩ :=
    substAllFalse_AtLeast 1 (0 :: 1 :: (List.range m).map (fun x => 2 + x)) _ hPnec
  obtain ⟨lcon, hsubcon, hPcon'⟩ :=
    substAllFalse_AtLeast 1 (0 :: 1 :: (List.range m).map (fun x => 2 + x)) _ hPcon
  obtain ⟨lsuf, hsubsuf, hPsuf'⟩ :=
    substAllFalse_AtLeast 1 (0 :: 1 :: (List.range m).map (fun x => 2 + x)) _ hPsuf
  have henv : ∀ x, ((sufK (m + 2) (m + 1)).env).vertexEquiv x = none := fun x => rfl
  obtain ⟨rnec, hsnec⟩ := simplify_AtLeast_ok _ henv g hg 1 lnec hPnec'
  obtain ⟨rcon, hscon⟩ := simplify_AtLeast_ok _ henv g hg 1 lcon hPcon'
  obtain ⟨rsuf, hssuf⟩ := simplify_AtLeast_ok _ henv g hg 1 lsuf hPsuf'
  obtain ⟨e', hse, c1, c2, c3⟩ := setEquivAll_spec (g + 1) (by omega) (m + 1)
    (0 :: 1 :: (List.range m).map (fun x => 2 + x))
    ((sufK (m + 2) (m + 1)).upd (m + 1)
      { (sufK (m + 2) (m + 1)).vs (m + 1) with
        necessary_condition := rnec, condition := rcon,
        sufficient_condition := rsuf })
    (by rw [vs_upd_self]; rfl) (by rw [vs_upd_self]; rfl)
  refine ⟨e', ?_, ?_, ?_, ?_⟩
  · rw [combine_equivalent_vertices.eq_def, hcr, hrange]
    simp only []
    rw [AtLeast_one_long _ (by simp), AtLeast_one_long _ (by simp),
      AtLeast_one_long _ (by simp)]
    rw [hsubnec, hsubcon, hsubsuf, hsnec, hscon, hssuf]
    exact hse
  · rw [c2 (m + 1) (Or.inr rfl), vs_upd_self]
    rfl
  · intro i hi hib
    refine c1 i ?_ hib
    rw [← hrange, List.mem_range]
    omega
  · intro i
    rw [c3 i]
    by_cases hib : i = m + 1
    · subst hib
      rw [vs_upd_self]
      rfl
    · rw [vs_upd_ne _ _ _ _ hib]
      rfl

theorem sufLoop_detect (n f0 g : Nat) (hn : 2 ≤ n) (h0 : 2 ≤ f0) (hg : 1 ≤ g) :
    ∃ e', sufLoop f0 (sufK n (n - 1)) 0 g (stackK (n - 1)) (stackK (n - 1))
        (framesK n (n - 1)) = some (e', true) ∧
      (e'.vs (n - 1)).equivalent_to = none ∧
      (∀ i, i < n → i ≠ n - 1 → (e'.vs i).equivalent_to = some (n - 1)) ∧
      (∀ i, (e'.vs i).is_known = false) := by
  obtain ⟨g', rfl⟩ : ∃ g', g = g' + 1 := ⟨g - 1, by omega⟩
  have hmod : (n - 1 + 1) % n = 0 := by
    rw [Nat.sub_add_cancel (by omega), Nat.mod_self]
  have hmem : 0 ∈ stackK (n - 1) := by rw [mem_stackK]; omega
  obtain ⟨e', hce, p1, p2, p3⟩ := combine_range n f0 hn h0
  have hsf : stackFrom ((n - 1) :: (List.range (n - 1)).reverse) 0 = List.range n := by
    rw [← stackK_cons, stackFrom_stackK, Nat.sub_add_cancel (by omega)]
  refine ⟨e', ?_, p1, p2, p3⟩
  conv_lhs => rw [stackK_cons, framesK]
  rw [sufLoop, hmod]
  rw [if_pos (by rw [stackK_cons] at hmem; exact hmem)]
  rw [if_pos (by rw [stackK_cons] at hmem; exact hmem)]
  rw [hsf, hce]

theorem sufLoop_run (n f0 : Nat) (hn : 2 ≤ n) (h0 : 2 ≤ f0) :
    ∀ j k g, k + j + 1 = n → n - k ≤ g →
    ∃ e', sufLoop f0 (sufK n k) 0 g (stackK k) (stackK k) (framesK n k) =
        some (e', true) ∧
      (e'.vs (n - 1)).equivalent_to = none ∧
      (∀ i, i < n → i ≠ n - 1 → (e'.vs i).equivalent_to = some (n - 1)) ∧
      (∀ i, (e'.vs i).is_known = false) := by
  intro j
  induction j with
  | zero =>
    intro k g hkj hg
    have hk : k = n - 1 := by omega
    subst hk
    exact sufLoop_detect n f0 g hn h0 (by omega)
  | succ j ih =>
    intro k g hkj hg
    obtain ⟨g', rfl⟩ : ∃ g', g = g' + 1 := ⟨g - 1, by omega⟩
    rw [sufLoop_step n k g' f0 (by omega) (by omega)]
    exact ih (k + 1) g' (by omega) (by omega)

theorem checkSuf_cycle (n f : Nat) (hn : 2 ≤ n) (hf : n ≤ f) :
    ∃ e', check_for_sufficiency_loops f (sufInit n) 0 = some (e', true) ∧
      (e'.vs (n - 1)).equivalent_to = none ∧
      (∀ i, i < n → i ≠ n - 1 → (e'.vs i).equivalent_to = some (n - 1)) ∧
      (∀ i, (e'.vs i).is_known = false) := by
  have haddNew : addNew ((sufInit n).vs 0).sufficient_vertices
      (newSufficient (sufInit n) 0) = ([1 % n], true) := by
    rw [show ((sufInit n).vs 0).sufficient_vertices = [] from rfl,
      show newSufficient (sufInit n) 0 = [1 % n] from
        newSuf_ph_V "exact" (some 0) (1 % n)]
    rfl
  obtain ⟨e', hrun, p1, p2, p3⟩ :=
    sufLoop_run n f hn (by omega) (n - 1) 0 f (by omega) (by omega)
  refine ⟨e', ?_, p1, p2, p3⟩
  rw [check_for_sufficiency_loops, haddNew]
  exact (congrArg (fun e => sufLoop f e 0 f [0] [0] [[1 % n].reverse])
    (sufInit_upd n)).trans hrun

theorem fd_sufCycle (n fuel : Nat) (hn : 2 ≤ n) (hf : n + 2 ≤ fuel) :
    ∃ e', fast_deduce fuel (sufCycleEngine n) 0 = some e' ∧
      (e'.vs (n - 1)).equivalent_to = none ∧
      (∀ i, i < n → i ≠ n - 1 → (e'.vs i).equivalent_to = some (n - 1)) := by
  obtain ⟨f', rfl⟩ : ∃ f', fuel = f' + 1 + 1 := ⟨fuel - 2, by omega⟩
  obtain ⟨e', hcs, p1, p2, p3⟩ := checkSuf_cycle n (f' + 1) hn (by omega)
  have hms2 : maybe_simplify (f' + 1) e' 0 = some (e', false) := by
    simp [maybe_simplify, p3 0, p2 0 (by omega) (by omega), p3 (n - 1), p1]
  have hneg : ¬ ((e'.vs 0).equivalent_to = none ∧ (e'.vs 0).is_known = false) := by
    rw [p2 0 (by omega) (by omega)]
    simp
  refine ⟨e', ?_, p1, p2⟩
  refine (congrArg (fun e =>
    match maybe_simplify (f' + 1 + 1) e 0 with
    | none => none
    | some (e1, _) => fdLoop e1 0 (f' + 1 + 1)) (sufCycle_upd n)).trans ?_
  simp only [ms_sufInit n (f' + 1 + 1) 0 (by omega)]
  rw [fdLoop, if_pos ⟨rfl, rfl⟩]
  simp only [checkNecS n (f' + 1)]
  simp only [Bool.false_eq_true, if_false]
  simp only [hcs, if_true]
  simp only [hms2]
  rw [fdLoop, if_neg hneg]

/-- C4: sufficiency-loop deduction.  `sufCycleEngine n` is an `n`-vertex
sufficiency cycle: every vertex's combined exact-or-sufficient condition
makes the next vertex (circularly) sufficient.  Running `fast_deduce` on a
vertex of the cycle with enough fuel terminates, and afterwards there is a
base vertex `b` in the cycle (the last cycle member the DFS pushed) whose
`equivalent_to` is `None` while every other cycle member's
`equivalent_to` leads to `b`. -/
theorem C4_sufficiency_loop_deduction (n fuel : Nat) (hn : 2 ≤ n)
    (hf : n + 2 ≤ fuel) :
    ∃ e' b, fast_deduce fuel (sufCycleEngine n) 0 = some e' ∧ b < n ∧
      (e'.vs b).equivalent_to = none ∧
      ∀ i, i < n → i ≠ b → (e'.vs i).equivalent_to = some b := by
  obtain ⟨e', h1, h2, h3⟩ := fd_sufCycle n fuel hn hf
  exact ⟨e', n - 1, h1, by omega, h2, h3⟩

/-- C4 witness: the three-vertex sufficiency cycle collapses onto one
base vertex. -/
theorem C4_sufficiency_loop_deduction_witness :
    2 ≤ 3 ∧ 3 + 2 ≤ 12 ∧
    ∃ e' b, fast_deduce 12 (sufCycleEngine 3) 0 = some e' ∧ b < 3 ∧
      (e'.vs b).equivalent_to = none ∧
      ∀ i, i < 3 → i ≠ b → (e'.vs i).equivalent_to = some b :=
  ⟨by decide, by decide, C4_sufficiency_loop_deduction 3 12 (by decide) (by decide)⟩

end AomgVertex

namespace AomgDriver

/-- C2: determinism of `generate`.  For every world, every non-`None`
seed, and any two states of the ambient entropy source (`SystemRandom`,
the only nondeterminism `generate` can observe), the two runs produce
identical results: `generate(seed)` is a pure function of the
pre-generation world and the seed. -/
theorem C2_generate_deterministic {W T : Type} (ops : WorldOps W T)
    (env : DriverEnv) (o1 o2 : Nat → Nat) (fuel : Nat) (w : W)
    (s : String ⊕ List Nat) :
    generate ops env o1 fuel w (some s) = generate ops env o2 fuel w (some s) := rfl

/-- In contrast, with no seed the factory really does read the entropy
oracle: the stored seed bytes differ for different oracles (so the
determinism in C2 is about the seeded path, not an artifact of the
model). -/
theorem randomFactoryInit_none_reads_oracle :
    randomFactoryInit ⟨fun _ => [], fun _ => 0, fun n => n⟩ (fun _ => 0) none ≠
    randomFactoryInit ⟨fun _ => [], fun _ => 0, fun n => n⟩ (fun _ => 1) none := by
  intro h
  have := congrArg RandomFactoryS.seed h
  simp [randomFactoryInit] at this

end AomgDriver

namespace AomgChoice

/-- C5 counterexample: for a choice that is not known, has no strategy and
no default, `make()` raises `ValueError`, not `LogicError` as the claim
states. -/
theorem C5_make_counterexample :
    (make mcNull freshChoice).1 = Except.error PyError.valueError ∧
    (make mcNull freshChoice).1 ≠ Except.error PyError.logicError := by
  constructor
  · rfl
  · intro h
    rw [show (make mcNull freshChoice).1 = Except.error PyError.valueError from rfl] at h
    exact PyError.noConfusion (Except.error.inj h)

/-- C5 (amended): for every strategy environment and every choice that is
not known, has strategy `None` and default `None`, `make()` fails with
`ValueError` and leaves the choice unchanged (in particular still not
known). -/
theorem C5_make_no_default_value_error (mc : MakeChoiceFn) (c : ChoiceS)
    (hk : c.known = false) (hs : c.strategy = none) (hd : c.default = none) :
    make mc c = (Except.error PyError.valueError, c) ∧ c.known = false := by
  refine ⟨?_, hk⟩
  unfold make
  rw [hk, hs, hd]
  simp

/-- C5 witness: the amended theorem applied to the concrete fresh choice. -/
theorem C5_make_no_default_value_error_witness :
    make mcNull freshChoice = (Except.error PyError.valueError, freshChoice) ∧
    freshChoice.known = false :=
  C5_make_no_default_value_error mcNull freshChoice rfl rfl rfl

end AomgChoice

namespace AomgRPS

/-- C6: evaluating `RandomPortStrategy.eliminate_choice` on port `Port`
(id 2) at the peer path `"World.Game.Port2"` shows the code slip:
`eliminate("COMMIT")` does set `commit_impossible`, but
`eliminate(peer_path)` raises `ValueError` inside `object_from_path` —
the dotted string is indexed character-wise, so the root search compares
the ancestors `Port`, `Game`, `World` against the one-character string
`"W"` and fails (line 584) — before the `+=` executes, so the peer is
never appended, unlike the spec's append of exactly that peer.  And even
if resolution returned the peer object, the statement would evaluate
`tuple + GameObject` and raise `TypeError` (the one-tuple wrapping is
also missing). -/
theorem C6_eliminate_choice_value_error :
    eliminate_choice objWorldEx 10 2 rpcEx "COMMIT" =
      some (Except.ok { rpcEx with commit_impossible := true }) ∧
    eliminate_choice objWorldEx 10 2 rpcEx "World.Game.Port2" =
      some (Except.error PyError.valueError) ∧
    eliminate_choice_spec resolveEx rpcEx "World.Game.Port2" =
      { rpcEx with impossible_connections := [7, 16] } ∧
    tupleConcat rpcEx.impossible_connections (PyVal.obj 3) =
      Except.error PyError.typeError :=
  ⟨rfl, rfl, rfl, rfl⟩

end AomgRPS
